import Mathlib

/-!
A shallow embedding of the metadata cache of `plugin/lighthouse/metadata.py`
(classes `DatabaseMetadata`, `FunctionMetadata`, `NodeMetadata`,
`MetadataDelta`), together with proofs about it.

Python dictionaries are embedded as association lists `List (Nat × α)`;
`dict.get`, `dict.update`, `del` and `dict.keys()` become `dlookup`,
`dupdate`, `ddeleteAll` and `dkeys`.  `dinsert` keeps the position of an
existing key and appends a fresh key, so the key *set* semantics coincides
with Python's.  Machine addresses are natural numbers.  Python exceptions
are modelled with `Except PyExc`.
-/

namespace Lighthouse

/-- Python exceptions that the embedded code can raise. -/
inductive PyExc where
  /-- `AttributeError` (attribute missing on an object). -/
  | attributeError : PyExc
  /-- `ValueError` (used by `get_node` for an unmapped address). -/
  | valueError : PyExc
  /-- `AssertionError` (the `assert` in `refresh`). -/
  | assertionError : PyExc
  deriving DecidableEq, Repr

/-! ### Association-list model of Python dicts -/

/-- `d.get(k, None)`: first binding of `k` in the association list. -/
def dlookup (k : Nat) : List (Nat × α) → Option α
  | [] => none
  | (k', v) :: rest => if k' = k then some v else dlookup k rest

/-- `d[k] = v`: replace the binding of an existing key in place, append a
fresh key at the end. -/
def dinsert (k : Nat) (v : α) : List (Nat × α) → List (Nat × α)
  | [] => [(k, v)]
  | (k', v') :: rest =>
      if k' = k then (k', v) :: rest else (k', v') :: dinsert k v rest

/-- `d.update(delta)`: fold `dinsert` over the bindings of `delta`. -/
def dupdate (d delta : List (Nat × α)) : List (Nat × α) :=
  delta.foldl (fun acc p => dinsert p.1 p.2 acc) d

/-- `d.keys()` in storage order. -/
def dkeys (d : List (Nat × α)) : List Nat := d.map Prod.fst

/-- `k in d`. -/
def dmem (k : Nat) (d : List (Nat × α)) : Bool := (dkeys d).contains k

/-- Deleting every binding of the keys selected by `p`
(the loop `for k in removed: del d[k]`). -/
def ddeleteAll (p : Nat → Bool) (d : List (Nat × α)) : List (Nat × α) :=
  d.filter (fun q => !(p q.1))

/-- `sorted(d.keys())`. -/
def sortedKeys (d : List (Nat × α)) : List Nat :=
  List.insertionSort (· ≤ ·) (dkeys d)

/-! ### The entity model

The Python object graph is cyclic: a `NodeMetadata` holds a reference to
its parent `FunctionMetadata`, whose `nodes` dict holds the node back.
An inductive value cannot be cyclic, so the node's `function` field stores
exactly the projection of the parent that `FunctionMetadata.__eq__`
observes (`name`, `size`, `address`, `node_count`, `instruction_count`,
and the key *set* of `nodes` — node values are never read through the
back-reference by the embedded code). -/

/-- The fields of a parent `FunctionMetadata` observable through a node's
`function` back-reference (see the note above). -/
structure FunctionRef where
  /-- `FunctionMetadata.name` (`None` until `_refresh_name` runs). -/
  name : Option String
  /-- `FunctionMetadata.size`. -/
  size : Nat
  /-- `FunctionMetadata.address`. -/
  address : Nat
  /-- `FunctionMetadata.node_count`. -/
  node_count : Nat
  /-- `FunctionMetadata.instruction_count`. -/
  instruction_count : Nat
  /-- the key set `FunctionMetadata.nodes.viewkeys()`. -/
  node_keys : List Nat
  deriving DecidableEq, Repr

/-- `NodeMetadata`: basic-block level metadata. -/
structure NodeMetadata where
  /-- `self.size = node.endEA - node.startEA`. -/
  size : Nat
  /-- `self.address = node.startEA`. -/
  address : Nat
  /-- `self.instruction_count`. -/
  instruction_count : Nat
  /-- flowchart node id (`idaapi.BADADDR` until assigned). -/
  id : Nat
  /-- parent function back-reference (`None` until assigned). -/
  function : Option FunctionRef
  /-- `self.instructions`: instruction address → instruction size. -/
  instructions : List (Nat × Nat)
  deriving DecidableEq, Repr

/-- `FunctionMetadata`: function level metadata. -/
structure FunctionMetadata where
  /-- `self.address`. -/
  address : Nat
  /-- `self.name`. -/
  name : Option String
  /-- `self.nodes`: node address → node metadata. -/
  nodes : List (Nat × NodeMetadata)
  /-- `self.size` (baked by `_finalize`). -/
  size : Nat
  /-- `self.node_count` (baked by `_finalize`). -/
  node_count : Nat
  /-- `self.instruction_count` (baked by `_finalize`). -/
  instruction_count : Nat
  deriving DecidableEq, Repr

/-- The refresh worker thread handle (`threading.Thread`): the embedding
only observes `is_alive()`. -/
structure Worker where
  /-- `worker.is_alive()`. -/
  alive : Bool
  deriving DecidableEq, Repr

/-- `DatabaseMetadata`: database level metadata cache.  Field names drop
the Python leading underscores. -/
structure DatabaseMetadata where
  /-- `self.instructions`. -/
  instructions : List (Nat × Nat) := []
  /-- `self.nodes`. -/
  nodes : List (Nat × NodeMetadata) := []
  /-- `self.functions`. -/
  functions : List (Nat × FunctionMetadata) := []
  /-- `self._stale_lookup`. -/
  stale_lookup : Bool := false
  /-- `self._last_node` (`[]`, a blank iterable, is modelled as `none`). -/
  last_node : Option NodeMetadata := none
  /-- `self._node_addresses`. -/
  node_addresses : List Nat := []
  /-- `self._function_addresses`. -/
  function_addresses : List Nat := []
  /-- `self._refresh_worker`. -/
  refresh_worker : Option Worker := none
  /-- `self._stop_threads`. -/
  stop_threads : Bool := false
  deriving DecidableEq, Repr

/-! ### Structural equality operators (`__eq__` / `__contains__`) -/

/-- `NodeMetadata.__contains__`: `self.address <= address < self.address + self.size`. -/
def nodeContains (n : NodeMetadata) (address : Nat) : Bool :=
  decide (n.address ≤ address) && decide (address < n.address + n.size)

/-- Key-set equality `d1.viewkeys() == d2.viewkeys()`. -/
def keySetEq (l1 l2 : List Nat) : Bool :=
  l1.all (l2.contains ·) && l2.all (l1.contains ·)

/-- `FunctionRef` equality: the conjuncts of `FunctionMetadata.__eq__`
(with `nodes.viewkeys() == other.nodes.viewkeys()` as key-set equality). -/
def funcRefEq (a b : FunctionRef) : Bool :=
  decide (a.name = b.name) && decide (a.size = b.size) &&
  decide (a.address = b.address) && decide (a.node_count = b.node_count) &&
  decide (a.instruction_count = b.instruction_count) &&
  keySetEq a.node_keys b.node_keys

/-- Python 2 comparison `self.function == other.function` for the optional
back-references.  `None == None` is `True`; comparing `None` against a
`FunctionMetadata` dispatches to `FunctionMetadata.__eq__`, whose first
conjunct reads `other.name` off `None` and raises `AttributeError`. -/
def funcRefOptEq : Option FunctionRef → Option FunctionRef → Except PyExc Bool
  | none, none => .ok true
  | some a, some b => .ok (funcRefEq a b)
  | none, some _ => .error .attributeError
  | some _, none => .error .attributeError

/-- `NodeMetadata.__eq__`: all five `&=` conjuncts are evaluated (no
short-circuit), so the `function` comparison can raise. -/
def nodeEq (a b : NodeMetadata) : Except PyExc Bool := do
  let f ← funcRefOptEq a.function b.function
  return decide (a.size = b.size) && decide (a.address = b.address) &&
    decide (a.instruction_count = b.instruction_count) && f &&
    decide (a.id = b.id)

/-- `FunctionMetadata.__eq__` (both operands are real `FunctionMetadata`
objects everywhere the embedded code compares them, so no exception). -/
def funcEq (a b : FunctionMetadata) : Bool :=
  decide (a.name = b.name) && decide (a.size = b.size) &&
  decide (a.address = b.address) && decide (a.node_count = b.node_count) &&
  decide (a.instruction_count = b.instruction_count) &&
  keySetEq (dkeys a.nodes) (dkeys b.nodes)

/-! ### `get_node` and its bisection -/

/-- The loop body of CPython's `bisect.bisect_right`, with the loop turned
into structural recursion on an explicit fuel.  `bisect_right` supplies
`fuel = len(a)`, which dominates the number of iterations since
`hi - lo` strictly decreases. -/
def bisectGo (l : List Nat) (x : Nat) : Nat → Nat → Nat → Nat
  | 0, lo, _ => lo
  | fuel + 1, lo, hi =>
      if lo < hi then
        let mid := (lo + hi) / 2
        if x < l.getD mid 0 then bisectGo l x fuel lo mid
        else bisectGo l x fuel (mid + 1) hi
      else lo

/-- `bisect.bisect_right(a, x)` over the whole list. -/
def bisect_right (l : List Nat) (x : Nat) : Nat :=
  bisectGo l x l.length 0 l.length

/-- `DatabaseMetadata._refresh_lookup`: rebuild the sorted address lists
when they are stale (the Python `bool` result is dropped; no caller of the
embedded fragment uses it). -/
def refresh_lookup (m : DatabaseMetadata) : DatabaseMetadata :=
  if m.stale_lookup then
    { m with node_addresses := sortedKeys m.nodes,
             function_addresses := sortedKeys m.functions,
             stale_lookup := false }
  else m

/-- Python list indexing `a[i]` for `i = bisect_right - 1`: index `-1`
wraps to the last element; out of range raises `IndexError` (surfaced by
`get_node` as its `ValueError`). -/
def pyIndexPred (l : List Nat) (bisectResult : Nat) : Option Nat :=
  match bisectResult with
  | 0 => l.getLast?
  | j + 1 => l.get? j

/-- The slow path of `DatabaseMetadata.get_node`, after the memo miss and
the inline `_refresh_lookup`. -/
def get_node_slow (m : DatabaseMetadata) (address : Nat) :
    Except PyExc NodeMetadata × DatabaseMetadata :=
  match pyIndexPred m.node_addresses (bisect_right m.node_addresses address) with
  | none => (.error .valueError, m)          -- IndexError, caught
  | some key =>
      match dlookup key m.nodes with
      | none => (.error .valueError, m)      -- KeyError, caught
      | some node =>
          if nodeContains node address then
            (.ok node, { m with last_node := some node })
          else
            (.error .valueError, m)

/-- `DatabaseMetadata.get_node`: single-slot memo first, then the inline
lookup-list refresh, then bisection.  Failure is the `ValueError`
("Given address does not fall within a known node"). -/
def get_node (m : DatabaseMetadata) (address : Nat) :
    Except PyExc NodeMetadata × DatabaseMetadata :=
  match m.last_node with
  | some n =>
      if nodeContains n address then (.ok n, m)
      else get_node_slow (refresh_lookup m) address
  | none => get_node_slow (refresh_lookup m) address

/-! ### `flatten_blocks` -/

/-- The inner `while address < end_address` loop of
`DatabaseMetadata.flatten_blocks`, with an explicit fuel bounding the
number of iterations; `none` models a non-terminating walk (which the
Python loop performs when it meets a mapped instruction size of `0`). -/
def flattenGo (instructions : List (Nat × Nat)) :
    Nat → Nat → Nat → Option (List Nat)
  | address, endAddress, 0 =>
      if address < endAddress then none else some []
  | address, endAddress, fuel + 1 =>
      if address < endAddress then
        match flattenGo instructions
            (address + (dlookup address instructions).getD 1) endAddress fuel with
        | some rest => some (address :: rest)
        | none => none
      else some []

/-- One basic block's walk: fuel `size` suffices because every terminating
walk advances by at least one byte per appended address. -/
def flattenBlock (instructions : List (Nat × Nat)) (address size : Nat) :
    Option (List Nat) :=
  flattenGo instructions address (address + size) size

/-- `DatabaseMetadata.flatten_blocks`: concatenate the walks of the given
`(address, size)` blocks against `self.instructions`. -/
def flatten_blocks (m : DatabaseMetadata) (basic_blocks : List (Nat × Nat)) :
    Option (List Nat) :=
  match basic_blocks with
  | [] => some []
  | (address, size) :: rest => do
      let first ← flattenBlock m.instructions address size
      let more ← flatten_blocks m rest
      return first ++ more

/-! ### The merge step and the refresh lifecycle -/

/-- The predicate selecting `_update_functions`' delta entries: keep a
fresh `(address, new_metadata)` pair unless an old binding exists and is
structurally equal (`if old_metadata and old_metadata == new_metadata:
continue`; a present `FunctionMetadata` is always truthy). -/
def deltaKeep (functions : List (Nat × FunctionMetadata))
    (p : Nat × FunctionMetadata) : Bool :=
  match dlookup p.1 functions with
  | some old_metadata => !(funcEq old_metadata p.2)
  | none => true

/-- The nested loop of `_update_functions` that overlays every delta
function's nodes onto `self.nodes` and every node's instructions onto
`self.instructions` (one pass, both accumulators together, as in the
source). -/
def overlayDelta (delta : List (Nat × FunctionMetadata))
    (nodes : List (Nat × NodeMetadata)) (instructions : List (Nat × Nat)) :
    List (Nat × NodeMetadata) × List (Nat × Nat) :=
  delta.foldl
    (fun acc p =>
      (dupdate acc.1 p.2.nodes,
       p.2.nodes.foldl (fun ins q => dupdate ins q.2.instructions) acc.2))
    (nodes, instructions)

/-- The node component of `overlayDelta`, in isolation. -/
def nodesOverlay (delta : List (Nat × FunctionMetadata))
    (nodes : List (Nat × NodeMetadata)) : List (Nat × NodeMetadata) :=
  delta.foldl (fun acc p => dupdate acc p.2.nodes) nodes

/-- One function's contribution to the instruction overlay: the inner
loop `for node_metadata in function_metadata.nodes.itervalues()`. -/
def nodeInstrOverlay (nodes : List (Nat × NodeMetadata))
    (instructions : List (Nat × Nat)) : List (Nat × Nat) :=
  nodes.foldl (fun ins q => dupdate ins q.2.instructions) instructions

/-- The instruction component of `overlayDelta`, in isolation. -/
def instructionsOverlay (delta : List (Nat × FunctionMetadata))
    (instructions : List (Nat × Nat)) : List (Nat × Nat) :=
  delta.foldl (fun acc p => nodeInstrOverlay p.2.nodes acc) instructions

/-- `DatabaseMetadata._update_functions`: build the delta map of new or
changed functions, overlay it onto the three metadata maps, and mark the
lookup lists stale when the function or node count changed.  Returns the
delta map alongside the new state. -/
def update_functions (m : DatabaseMetadata)
    (fresh_metadata : List (Nat × FunctionMetadata)) :
    List (Nat × FunctionMetadata) × DatabaseMetadata :=
  let delta := fresh_metadata.filter (deltaKeep m.functions)
  let node_count := m.nodes.length
  let function_count := m.functions.length
  let functions' := dupdate m.functions delta
  let (nodes', instructions') := overlayDelta delta m.nodes m.instructions
  let stale' :=
    if node_count ≠ nodes'.length ∨ function_count ≠ functions'.length then
      true
    else m.stale_lookup
  (delta,
   { m with functions := functions', nodes := nodes',
            instructions := instructions', stale_lookup := stale' })

/-- The synchronous deletion pass at the top of `DatabaseMetadata.refresh`
(taken when `function_addresses is None`): drop every cached function
whose address is absent from the list pulled from the database, and mark
the lookup lists stale if anything was dropped. -/
def refreshDeletePass (db_function_addresses : List Nat)
    (m : DatabaseMetadata) : DatabaseMetadata :=
  let removed_nonempty := m.functions.any (fun p => !(db_function_addresses.contains p.1))
  { m with
      functions := ddeleteAll (fun a => !(db_function_addresses.contains a)) m.functions,
      stale_lookup := if removed_nonempty then true else m.stale_lookup }

/-- `DatabaseMetadata.refresh`, synchronous part: the
`assert self._refresh_worker == None` precondition, the deletion pass for
a full refresh, the reset of the stop flag, and the spawn of the worker
thread.  `db_function_addresses` stands for `list(idautils.Functions())`,
the address list pulled from the database when the caller passed `None`. -/
def refresh (m : DatabaseMetadata) (function_addresses : Option (List Nat))
    (db_function_addresses : List Nat) : Except PyExc DatabaseMetadata :=
  match m.refresh_worker with
  | some _ => .error .assertionError      -- 'Refresh already running'
  | none =>
      let m1 :=
        match function_addresses with
        | none => refreshDeletePass db_function_addresses m
        | some _ => m
      .ok { m1 with stop_threads := false, refresh_worker := some { alive := true } }

/-- `worker and worker.is_alive()` for the current refresh worker slot. -/
def workerAlive (m : DatabaseMetadata) : Bool :=
  match m.refresh_worker with
  | some w => w.alive
  | none => false

/-- `DatabaseMetadata.abort_refresh`: signal the stop flag when a worker
is alive, otherwise clear any stray stop flag; nothing else changes. -/
def abort_refresh (m : DatabaseMetadata) : DatabaseMetadata :=
  if workerAlive m then { m with stop_threads := true }
  else { m with stop_threads := false }

/-- `DatabaseMetadata._async_collect_metadata`.  The external collection
`collect_function_metadata(chunk)` is abstracted by handing the function
the already-collected fresh metadata of each chunk (`chunksData`), and the
worker's reads of the shared `self._stop_threads` flag at the per-chunk
cancellation check are abstracted by the schedule `stops` (entry `i` is
the value the flag reads after chunk `i` was merged; a missing entry reads
`False`).  Returns the Python function's `completed` boolean alongside the
mutated state. -/
def async_collect_metadata (m : DatabaseMetadata)
    (chunksData : List (List (Nat × FunctionMetadata))) (stops : List Bool) :
    Bool × DatabaseMetadata :=
  match chunksData with
  | [] => (true, m)
  | chunk :: rest =>
      let m' := (update_functions m chunk).2
      if stops.headD false then (false, m')
      else async_collect_metadata m' rest (stops.tailD [])

/-- `DatabaseMetadata._async_refresh`: run the collection, refresh the
lookup lists, and deliver either the metadata object itself or the `None`
abort sentinel through the result queue; finally clear the worker slot.
The first component is the item put on `result_queue`. -/
def async_refresh (m : DatabaseMetadata)
    (chunksData : List (List (Nat × FunctionMetadata))) (stops : List Bool) :
    Option DatabaseMetadata × DatabaseMetadata :=
  let (completed, m1) := async_collect_metadata m chunksData stops
  let m2 := refresh_lookup m1
  let m3 := { m2 with refresh_worker := none }
  (if completed then some m3 else none, m3)

/-! ### `MetadataDelta` -/

/-- The six result sets of a `MetadataDelta`, plus the transient
`_dirty_functions` working set. -/
structure MetadataDelta where
  /-- `self.nodes_added`. -/
  nodes_added : List Nat := []
  /-- `self.nodes_removed`. -/
  nodes_removed : List Nat := []
  /-- `self.nodes_modified`. -/
  nodes_modified : List Nat := []
  /-- `self.functions_added`. -/
  functions_added : List Nat := []
  /-- `self.functions_removed`. -/
  functions_removed : List Nat := []
  /-- `self.functions_modified`. -/
  functions_modified : List Nat := []
  /-- `self._dirty_functions`. -/
  dirty_functions : List Nat := []
  deriving DecidableEq, Repr

/-- The key union `new_nodes.viewkeys() | old_nodes.viewkeys()` iterated
by the node diff (new keys first, then the old-only keys; the outcome of
the diff does not depend on this order). -/
def keyUnion (new_nodes old_nodes : List (Nat × NodeMetadata)) : List Nat :=
  dkeys new_nodes ++ (dkeys old_nodes).filter (fun k => !(dmem k new_nodes))

/-- Reading `node_metadata.functions` in `_compute_node_delta`:
`NodeMetadata` defines only the singular `function` attribute, so this
attribute access raises `AttributeError`. -/
def nodeFunctionsAttr (_ : NodeMetadata) : Except PyExc (List Nat) :=
  .error .attributeError

/-- The loop body of `MetadataDelta._compute_node_delta` for one address
of the key union. -/
def nodeDeltaStep (new_nodes old_nodes : List (Nat × NodeMetadata))
    (d : MetadataDelta) (node_address : Nat) : Except PyExc MetadataDelta := do
  match dlookup node_address new_nodes, dlookup node_address old_nodes with
  | none, none => return d      -- unreachable for addresses of the union
  | none, some old_node_metadata =>
      -- removed: `nodes_removed.add`; then `old_node_metadata.functions` raises
      let owners ← nodeFunctionsAttr old_node_metadata
      return { d with nodes_removed := d.nodes_removed ++ [node_address],
                      dirty_functions := d.dirty_functions ++ owners }
  | some new_node_metadata, none =>
      -- added: `nodes_added.add`; then `new_node_metadata.functions` raises
      let owners ← nodeFunctionsAttr new_node_metadata
      return { d with nodes_added := d.nodes_added ++ [node_address],
                      dirty_functions := d.dirty_functions ++ owners }
  | some new_node_metadata, some old_node_metadata =>
      let equal ← nodeEq new_node_metadata old_node_metadata
      if equal then return d
      else do
        -- modified: `nodes_modified.add`; then both `.functions` reads raise
        let newOwners ← nodeFunctionsAttr new_node_metadata
        let oldOwners ← nodeFunctionsAttr old_node_metadata
        return { d with nodes_modified := d.nodes_modified ++ [node_address],
                        dirty_functions := d.dirty_functions ++ newOwners ++ oldOwners }

/-- `MetadataDelta._compute_node_delta`: fold the loop body over the key
union, threading the partially built delta and propagating exceptions. -/
def compute_node_delta (d : MetadataDelta)
    (new_nodes old_nodes : List (Nat × NodeMetadata)) : Except PyExc MetadataDelta :=
  (keyUnion new_nodes old_nodes).foldlM (nodeDeltaStep new_nodes old_nodes) d

/-- The loop body of `MetadataDelta._compute_function_delta` for one dirty
function address. -/
def functionDeltaStep (new_functions old_functions : List (Nat × FunctionMetadata))
    (d : MetadataDelta) (function_address : Nat) : MetadataDelta :=
  match dlookup function_address new_functions,
        dlookup function_address old_functions with
  | none, _ =>
      { d with functions_removed := d.functions_removed ++ [function_address] }
  | some _, none =>
      { d with functions_added := d.functions_added ++ [function_address] }
  | some _, some _ =>
      -- present in both: assumed modified, no structural recheck
      { d with functions_modified := d.functions_modified ++ [function_address] }

/-- `MetadataDelta._compute_function_delta`: bucketize exactly the dirty
function addresses, then dispose of the dirty set. -/
def compute_function_delta (d : MetadataDelta)
    (new_functions old_functions : List (Nat × FunctionMetadata)) : MetadataDelta :=
  let d' := d.dirty_functions.foldl (functionDeltaStep new_functions old_functions) d
  { d' with dirty_functions := [] }

/-- `MetadataDelta.__init__` / `_compute_delta`: all sets start empty; an
absent (`None`) old snapshot classifies everything in the new snapshot as
added; otherwise run the node diff then the function diff. -/
def compute_delta (new_metadata : DatabaseMetadata)
    (old_metadata : Option DatabaseMetadata) : Except PyExc MetadataDelta :=
  match old_metadata with
  | none =>
      .ok { nodes_added := dkeys new_metadata.nodes,
            functions_added := dkeys new_metadata.functions }
  | some old => do
      let d ← compute_node_delta {} new_metadata.nodes old.nodes
      return compute_function_delta d new_metadata.functions old.functions

/-! ### Invariants and well-formedness predicates

The predicates below are stated with bounded (hence decidable)
quantification so that concrete witnesses can be checked by `decide`. -/

/-- Canonically fueled walk of one byte range (`flattenBlock` is this walk
at `endAddress = address + size`; the fuel `endAddress - address` bounds
the iterations of every terminating walk). -/
def flattenWalk (instructions : List (Nat × Nat)) (address endAddress : Nat) :
    Option (List Nat) :=
  flattenGo instructions address endAddress (endAddress - address)

/-- The key multiset union of all `function.nodes` across `functions`. -/
def functionNodeKeys (m : DatabaseMetadata) : List Nat :=
  m.functions.flatMap (fun p => dkeys p.2.nodes)

/-- The key multiset union of all `node.instructions` across `nodes`. -/
def nodeInstructionKeys (m : DatabaseMetadata) : List Nat :=
  m.nodes.flatMap (fun p => dkeys p.2.instructions)

/-- Claimed invariant, part 1: when the stale flag is clear, the lookup
lists are exactly the sorted key lists of `nodes` and `functions`. -/
def lookupListsExact (m : DatabaseMetadata) : Prop :=
  m.stale_lookup = false →
    m.node_addresses = sortedKeys m.nodes ∧
    m.function_addresses = sortedKeys m.functions

/-- Claimed invariant, part 2: `nodes` is exactly the union of all
`function.nodes` (at the level of key sets, which the deletion
counterexample already violates). -/
def nodesExactlyUnion (m : DatabaseMetadata) : Prop :=
  (∀ a ∈ dkeys m.nodes, a ∈ functionNodeKeys m) ∧
  (∀ a ∈ functionNodeKeys m, a ∈ dkeys m.nodes)

/-- Claimed invariant, part 3: `instructions` is exactly the union of all
node instruction maps (at the level of key sets). -/
def instructionsExactlyUnion (m : DatabaseMetadata) : Prop :=
  (∀ a ∈ dkeys m.instructions, a ∈ nodeInstructionKeys m) ∧
  (∀ a ∈ nodeInstructionKeys m, a ∈ dkeys m.instructions)

/-- The conjunction of the three claimed `DatabaseMetadata` invariants. -/
def databaseInvariants (m : DatabaseMetadata) : Prop :=
  lookupListsExact m ∧ nodesExactlyUnion m ∧ instructionsExactlyUnion m

/-- Weakened invariant, part 2: every current function's node addresses
appear in `nodes` (the flattened map may keep stale extra entries). -/
def nodesSupersetUnion (m : DatabaseMetadata) : Prop :=
  ∀ a ∈ functionNodeKeys m, a ∈ dkeys m.nodes

/-- Weakened invariant, part 3: every stored node's instruction addresses
appear in `instructions`. -/
def instructionsSupersetUnion (m : DatabaseMetadata) : Prop :=
  ∀ a ∈ nodeInstructionKeys m, a ∈ dkeys m.instructions

/-- The invariants that the mutating operations actually preserve. -/
def databaseInvariantsWeak (m : DatabaseMetadata) : Prop :=
  lookupListsExact m ∧ nodesSupersetUnion m ∧ instructionsSupersetUnion m

/-- Well-formedness of the node store, as `refresh`/`_update_functions`
construct it: the lookup lists are faithful whenever the stale flag is
clear; every node is keyed by its own address (`_refresh_nodes` stores
`nodes[node.startEA]`); keys are unambiguous; nodes are non-empty
(`_refresh_nodes` skips `startEA == endEA` blocks) and pairwise
non-overlapping; and the single-slot memo holds nothing but a stored
node. -/
def wfNodeStore (m : DatabaseMetadata) : Prop :=
  (m.stale_lookup = false → m.node_addresses = sortedKeys m.nodes) ∧
  (∀ p ∈ m.nodes, p.2.address = p.1) ∧
  (dkeys m.nodes).Nodup ∧
  (∀ p ∈ m.nodes, 0 < p.2.size) ∧
  (∀ p ∈ m.nodes, ∀ q ∈ m.nodes, p.1 ≠ q.1 →
    (q.2.address + q.2.size ≤ p.2.address ∨ p.2.address + p.2.size ≤ q.2.address)) ∧
  (m.last_node = none ∨ ∃ p ∈ m.nodes, m.last_node = some p.2)

/-- `Except.ok true`, as a boolean (used to state structural equality of
two node maps decidably). -/
def exceptOkTrue : Except PyExc Bool → Bool
  | .ok b => b
  | .error _ => false

/-- The two node maps are structurally equal: same key sets, and
`NodeMetadata.__eq__` returns `True` on each common key. -/
def nodeMapsEq (new_nodes old_nodes : List (Nat × NodeMetadata)) : Bool :=
  keySetEq (dkeys new_nodes) (dkeys old_nodes) &&
  (dkeys new_nodes).all (fun k =>
    match dlookup k new_nodes, dlookup k old_nodes with
    | some v, some w => exceptOkTrue (nodeEq v w)
    | _, _ => false)

/-! ### Concrete example values (used by witnesses and counterexamples) -/

/-- A node at address `0` of size `10` (two instructions). -/
def exNodeA : NodeMetadata :=
  { size := 10, address := 0, instruction_count := 2, id := 0,
    function := some { name := some "sub_0", size := 10, address := 0,
                       node_count := 1, instruction_count := 2, node_keys := [0] },
    instructions := [(0, 4), (4, 6)] }

/-- A node at address `5` of size `2`, overlapping `exNodeA`. -/
def exNodeB : NodeMetadata :=
  { size := 2, address := 5, instruction_count := 1, id := 1,
    function := some { name := some "sub_5", size := 2, address := 5,
                       node_count := 1, instruction_count := 1, node_keys := [5] },
    instructions := [(5, 2)] }

/-- A node at address `20` of size `4`, disjoint from `exNodeA`. -/
def exNodeC : NodeMetadata :=
  { size := 4, address := 20, instruction_count := 1, id := 0,
    function := some { name := some "sub_20", size := 4, address := 20,
                       node_count := 1, instruction_count := 1, node_keys := [20] },
    instructions := [(20, 4)] }

/-- A one-node function at address `20` owning `exNodeC`. -/
def exFuncC : FunctionMetadata :=
  { address := 20, name := some "sub_20", nodes := [(20, exNodeC)],
    size := 4, node_count := 1, instruction_count := 1 }

/-- A snapshot with two overlapping nodes and a fresh lookup index. -/
def exOverlap : DatabaseMetadata :=
  { nodes := [(0, exNodeA), (5, exNodeB)], node_addresses := [0, 5] }

/-- A well-formed snapshot with two disjoint nodes, a fresh index, and a
warm memo. -/
def exDisjoint : DatabaseMetadata :=
  { nodes := [(0, exNodeA), (20, exNodeC)], node_addresses := [0, 20],
    instructions := [(0, 4), (4, 6), (20, 4)],
    last_node := some exNodeC }

/-- A snapshot satisfying all three claimed invariants: one function at
`20` owning `exNodeC`. -/
def exInvariant : DatabaseMetadata :=
  { functions := [(20, exFuncC)], nodes := [(20, exNodeC)],
    instructions := [(20, 4)],
    node_addresses := [20], function_addresses := [20] }

/-- `exFuncC` with nothing changed but its name (a function-level-only
change that leaves every node map untouched). -/
def exFuncRenamed : FunctionMetadata :=
  { exFuncC with name := some "renamed_sub_20" }

/-! ### Lemmas about the dict model -/

theorem dkeys_nil {α : Type} : dkeys ([] : List (Nat × α)) = [] := rfl

theorem dkeys_cons {α : Type} {a : Nat} {b : α} {rest : List (Nat × α)} :
    dkeys ((a, b) :: rest) = a :: dkeys rest := rfl

theorem dlookup_mem {α : Type} {k : Nat} {v : α} :
    ∀ {l : List (Nat × α)}, dlookup k l = some v → (k, v) ∈ l := by
  intro l
  induction l with
  | nil => intro h; simp [dlookup] at h
  | cons p rest ih =>
      obtain ⟨a, b⟩ := p
      intro h
      by_cases hk : a = k
      · subst hk
        rw [show dlookup a ((a, b) :: rest) = some b by simp [dlookup],
          Option.some.injEq] at h
        subst h
        exact List.mem_cons_self _ _
      · simp only [dlookup, if_neg hk] at h
        exact List.mem_cons_of_mem _ (ih h)

theorem mem_keys_of_dlookup {α : Type} {k : Nat} {v : α} {l : List (Nat × α)}
    (h : dlookup k l = some v) : k ∈ dkeys l :=
  List.mem_map_of_mem Prod.fst (dlookup_mem h)

theorem dlookup_eq_some_of_mem_keys {α : Type} {k : Nat} :
    ∀ {l : List (Nat × α)}, k ∈ dkeys l → ∃ v, dlookup k l = some v ∧ (k, v) ∈ l := by
  intro l
  induction l with
  | nil => intro h; simp [dkeys] at h
  | cons p rest ih =>
      obtain ⟨a, b⟩ := p
      intro h
      by_cases hk : a = k
      · subst hk
        exact ⟨b, by simp [dlookup], List.mem_cons_self _ _⟩
      · have hk' : k ∈ dkeys rest := by
          rw [dkeys_cons, List.mem_cons] at h
          rcases h with h1 | h1
          · exact absurd h1.symm hk
          · exact h1
        obtain ⟨v, hv, hmem⟩ := ih hk'
        exact ⟨v, by simpa [dlookup, hk] using hv, List.mem_cons_of_mem _ hmem⟩

theorem dlookup_eq_none_of_not_mem_keys {α : Type} {k : Nat}
    {l : List (Nat × α)} (h : k ∉ dkeys l) : dlookup k l = none := by
  cases hd : dlookup k l with
  | none => rfl
  | some v => exact absurd (mem_keys_of_dlookup hd) h

theorem dlookup_of_mem_nodup {α : Type} {k : Nat} {v : α} :
    ∀ {l : List (Nat × α)}, (k, v) ∈ l → (dkeys l).Nodup → dlookup k l = some v := by
  intro l
  induction l with
  | nil => intro h; simp at h
  | cons p rest ih =>
      obtain ⟨a, b⟩ := p
      intro hmem hnd
      have hnd' := hnd
      rw [dkeys_cons, List.nodup_cons] at hnd'
      rcases List.mem_cons.mp hmem with heq | htail
      · rw [Prod.mk.injEq] at heq
        obtain ⟨rfl, rfl⟩ := heq
        simp [dlookup]
      · by_cases hk : a = k
        · subst hk
          exact absurd (List.mem_map_of_mem Prod.fst htail) hnd'.1
        · simp only [dlookup, if_neg hk]
          exact ih htail hnd'.2

theorem dkeys_dinsert_of_mem {α : Type} {k : Nat} {v : α} :
    ∀ {l : List (Nat × α)}, k ∈ dkeys l → dkeys (dinsert k v l) = dkeys l := by
  intro l
  induction l with
  | nil => intro h; simp [dkeys] at h
  | cons p rest ih =>
      obtain ⟨a, b⟩ := p
      intro h
      by_cases hk : a = k
      · subst hk
        simp [dinsert, dkeys]
      · have h' : k ∈ dkeys rest := by
          rw [dkeys_cons, List.mem_cons] at h
          rcases h with h1 | h1
          · exact absurd h1.symm hk
          · exact h1
        show dkeys (if a = k then (a, v) :: rest else (a, b) :: dinsert k v rest) = _
        rw [if_neg hk]
        show a :: dkeys (dinsert k v rest) = a :: dkeys rest
        rw [ih h']

theorem dkeys_dinsert_of_not_mem {α : Type} {k : Nat} {v : α} :
    ∀ {l : List (Nat × α)}, k ∉ dkeys l → dkeys (dinsert k v l) = dkeys l ++ [k] := by
  intro l
  induction l with
  | nil => intro _; rfl
  | cons p rest ih =>
      obtain ⟨a, b⟩ := p
      intro h
      have hk : a ≠ k := fun hc => h (by rw [dkeys_cons, List.mem_cons]; left; exact hc.symm)
      have h' : k ∉ dkeys rest := fun hc => h (by rw [dkeys_cons, List.mem_cons]; right; exact hc)
      show dkeys (if a = k then (a, v) :: rest else (a, b) :: dinsert k v rest) = _
      rw [if_neg hk]
      show a :: dkeys (dinsert k v rest) = (a :: dkeys rest) ++ [k]
      rw [ih h']
      rfl

theorem length_dinsert_of_mem {α : Type} {k : Nat} {v : α} {l : List (Nat × α)}
    (h : k ∈ dkeys l) : (dinsert k v l).length = l.length := by
  have h1 : (dkeys (dinsert k v l)).length = (dkeys l).length := by
    rw [dkeys_dinsert_of_mem h]
  simpa [dkeys] using h1

theorem length_dinsert_of_not_mem {α : Type} {k : Nat} {v : α} {l : List (Nat × α)}
    (h : k ∉ dkeys l) : (dinsert k v l).length = l.length + 1 := by
  have h1 : (dkeys (dinsert k v l)).length = (dkeys l ++ [k]).length := by
    rw [dkeys_dinsert_of_not_mem h]
  simpa [dkeys] using h1

theorem length_le_length_dinsert {α : Type} {k : Nat} {v : α} {l : List (Nat × α)} :
    l.length ≤ (dinsert k v l).length := by
  by_cases h : k ∈ dkeys l
  · rw [length_dinsert_of_mem h]
  · rw [length_dinsert_of_not_mem h]
    omega

theorem mem_keys_dinsert_of_mem {α : Type} {a k : Nat} {v : α} {l : List (Nat × α)}
    (h : a ∈ dkeys l) : a ∈ dkeys (dinsert k v l) := by
  by_cases hk : k ∈ dkeys l
  · rwa [dkeys_dinsert_of_mem hk]
  · rw [dkeys_dinsert_of_not_mem hk]
    exact List.mem_append_left _ h

theorem mem_dinsert {α : Type} {p : Nat × α} {k : Nat} {v : α} :
    ∀ {l : List (Nat × α)}, p ∈ dinsert k v l → p ∈ l ∨ p = (k, v) := by
  intro l
  induction l with
  | nil => intro h; simp [dinsert] at h; right; exact h
  | cons q rest ih =>
      obtain ⟨a, b⟩ := q
      intro h
      by_cases hk : a = k
      · subst hk
        simp only [dinsert, if_pos rfl] at h
        rcases List.mem_cons.mp h with h | h
        · right; exact h
        · left; exact List.mem_cons_of_mem _ h
      · simp only [dinsert, if_neg hk] at h
        rcases List.mem_cons.mp h with h | h
        · left; exact h ▸ List.mem_cons_self _ _
        · rcases ih h with h | h
          · left; exact List.mem_cons_of_mem _ h
          · right; exact h

theorem dlookup_dinsert_self {α : Type} {k : Nat} {v : α} :
    ∀ {l : List (Nat × α)}, dlookup k (dinsert k v l) = some v := by
  intro l
  induction l with
  | nil => simp [dinsert, dlookup]
  | cons q rest ih =>
      obtain ⟨a, b⟩ := q
      by_cases hk : a = k
      · subst hk
        simp [dinsert, dlookup]
      · simp only [dinsert, if_neg hk, dlookup, if_neg hk]
        exact ih

theorem dlookup_dinsert_ne {α : Type} {k k' : Nat} {v : α} (hne : k' ≠ k) :
    ∀ {l : List (Nat × α)}, dlookup k' (dinsert k v l) = dlookup k' l := by
  have hks : ¬ k = k' := fun hc => hne hc.symm
  intro l
  induction l with
  | nil => simp [dinsert, dlookup, hks]
  | cons q rest ih =>
      obtain ⟨a, b⟩ := q
      by_cases hk : a = k
      · subst hk
        simp [dinsert, dlookup, hks]
      · by_cases hk' : a = k'
        · subst hk'
          simp [dinsert, hk, dlookup, hks]
        · simp only [dinsert, if_neg hk, dlookup, if_neg hk']
          exact ih

theorem dupdate_nil {α : Type} {d : List (Nat × α)} : dupdate d [] = d := rfl

theorem dupdate_cons {α : Type} {d rest : List (Nat × α)} {p : Nat × α} :
    dupdate d (p :: rest) = dupdate (dinsert p.1 p.2 d) rest := rfl

theorem length_le_length_dupdate {α : Type} {delta : List (Nat × α)} :
    ∀ {d : List (Nat × α)}, d.length ≤ (dupdate d delta).length := by
  induction delta with
  | nil => intro d; exact Nat.le_refl _
  | cons p rest ih =>
      intro d
      rw [dupdate_cons]
      exact Nat.le_trans length_le_length_dinsert ih

theorem dkeys_dupdate_of_length_eq {α : Type} {delta : List (Nat × α)} :
    ∀ {d : List (Nat × α)}, (dupdate d delta).length = d.length →
      dkeys (dupdate d delta) = dkeys d := by
  induction delta with
  | nil => intro d _; rfl
  | cons p rest ih =>
      intro d hlen
      rw [dupdate_cons] at hlen ⊢
      have h1 : d.length ≤ (dinsert p.1 p.2 d).length := length_le_length_dinsert
      have h2 : (dinsert p.1 p.2 d).length ≤ (dupdate (dinsert p.1 p.2 d) rest).length :=
        length_le_length_dupdate
      have heq : (dinsert p.1 p.2 d).length = d.length := by omega
      have hmem : p.1 ∈ dkeys d := by
        by_contra hc
        rw [length_dinsert_of_not_mem hc] at heq
        omega
      rw [ih (by omega), dkeys_dinsert_of_mem hmem]

theorem mem_dupdate {α : Type} {delta : List (Nat × α)} {p : Nat × α} :
    ∀ {d : List (Nat × α)}, p ∈ dupdate d delta → p ∈ d ∨ p ∈ delta := by
  induction delta with
  | nil => intro d h; left; exact h
  | cons q rest ih =>
      intro d h
      rw [dupdate_cons] at h
      rcases ih h with h | h
      · rcases mem_dinsert h with h | h
        · left; exact h
        · right
          rw [h]
          exact List.mem_cons_self _ _
      · right; exact List.mem_cons_of_mem _ h

theorem mem_keys_dupdate_left {α : Type} {delta : List (Nat × α)} {a : Nat} :
    ∀ {d : List (Nat × α)}, a ∈ dkeys d → a ∈ dkeys (dupdate d delta) := by
  induction delta with
  | nil => intro d h; exact h
  | cons q rest ih =>
      intro d h
      rw [dupdate_cons]
      exact ih (mem_keys_dinsert_of_mem h)

theorem mem_keys_dupdate_right {α : Type} {delta : List (Nat × α)} {a : Nat} :
    ∀ {d : List (Nat × α)}, a ∈ dkeys delta → a ∈ dkeys (dupdate d delta) := by
  induction delta with
  | nil => intro d h; simp [dkeys] at h
  | cons q rest ih =>
      intro d h
      obtain ⟨k, v⟩ := q
      rw [dkeys_cons, List.mem_cons] at h
      rw [dupdate_cons]
      rcases h with h | h
      · subst h
        exact mem_keys_dupdate_left (mem_keys_of_dlookup dlookup_dinsert_self)
      · exact ih h

theorem dlookup_dupdate_not_mem {α : Type} {delta : List (Nat × α)} {k : Nat}
    (h : k ∉ dkeys delta) :
    ∀ {d : List (Nat × α)}, dlookup k (dupdate d delta) = dlookup k d := by
  induction delta with
  | nil => intro d; rfl
  | cons q rest ih =>
      intro d
      obtain ⟨k0, v0⟩ := q
      have h1 : k ≠ k0 := fun hc => h (by rw [dkeys_cons, List.mem_cons]; left; exact hc)
      have h2 : k ∉ dkeys rest := fun hc => h (by rw [dkeys_cons, List.mem_cons]; right; exact hc)
      rw [dupdate_cons]
      rw [ih h2]
      exact dlookup_dinsert_ne h1

theorem dlookup_dupdate_mem_nodup {α : Type} {delta : List (Nat × α)} {k : Nat} {v : α} :
    ∀ {d : List (Nat × α)}, (dkeys delta).Nodup → (k, v) ∈ delta →
      dlookup k (dupdate d delta) = some v := by
  induction delta with
  | nil => intro d _ h; simp at h
  | cons q rest ih =>
      intro d hnd hmem
      obtain ⟨k0, v0⟩ := q
      rw [dkeys_cons, List.nodup_cons] at hnd
      rw [dupdate_cons]
      rcases List.mem_cons.mp hmem with heq | htail
      · rw [Prod.mk.injEq] at heq
        obtain ⟨rfl, rfl⟩ := heq
        rw [dlookup_dupdate_not_mem hnd.1]
        exact dlookup_dinsert_self
      · exact ih hnd.2 htail

theorem nodup_keys_filter {α : Type} {p : Nat × α → Bool} {l : List (Nat × α)}
    (h : (dkeys l).Nodup) : (dkeys (l.filter p)).Nodup :=
  List.Nodup.sublist (List.Sublist.map Prod.fst (List.filter_sublist l)) h

theorem keySetEq_refl (l : List Nat) : keySetEq l l = true := by
  rw [keySetEq]
  have h : l.all (l.contains ·) = true :=
    List.all_eq_true.mpr (fun a ha => List.elem_eq_true_of_mem ha)
  rw [h]
  rfl

theorem funcEq_refl (f : FunctionMetadata) : funcEq f f = true := by
  rw [funcEq, keySetEq_refl]
  simp

theorem binding_unique_of_nodup {α : Type} {F : List (Nat × α)} {a : Nat} {v w : α}
    (hnd : (dkeys F).Nodup) (hv : (a, v) ∈ F) (hw : (a, w) ∈ F) : v = w := by
  have h1 := dlookup_of_mem_nodup hv hnd
  have h2 := dlookup_of_mem_nodup hw hnd
  rw [h1] at h2
  exact (Option.some.injEq _ _ ▸ h2)

/-- After one merge of `F`, every entry of `F` is structurally equal to
the stored function at its address, so a second merge keeps nothing. -/
theorem deltaKeep_false_after_merge (m : DatabaseMetadata)
    (F : List (Nat × FunctionMetadata)) (hnd : (dkeys F).Nodup) :
    ∀ p ∈ F, deltaKeep (update_functions m F).2.functions p = false := by
  intro p hp
  obtain ⟨a, nf⟩ := p
  have hfun : (update_functions m F).2.functions =
      dupdate m.functions (F.filter (deltaKeep m.functions)) := rfl
  by_cases hk : deltaKeep m.functions (a, nf) = true
  · have hmem : (a, nf) ∈ F.filter (deltaKeep m.functions) :=
      List.mem_filter.mpr ⟨hp, hk⟩
    have hl : dlookup a (update_functions m F).2.functions = some nf := by
      rw [hfun]
      exact dlookup_dupdate_mem_nodup (nodup_keys_filter hnd) hmem
    rw [deltaKeep, hl]
    simp [funcEq_refl]
  · have hkf : deltaKeep m.functions (a, nf) = false := eq_false_of_ne_true hk
    rw [deltaKeep] at hkf
    cases hl : dlookup a m.functions with
    | none => rw [hl] at hkf; simp at hkf
    | some old =>
        rw [hl] at hkf
        have hEq : funcEq old nf = true := by simpa using hkf
        have hnotin : a ∉ dkeys (F.filter (deltaKeep m.functions)) := by
          intro hc
          obtain ⟨v, _, hvmem⟩ := dlookup_eq_some_of_mem_keys hc
          have hvF : (a, v) ∈ F := (List.mem_filter.mp hvmem).1
          have hvk : deltaKeep m.functions (a, v) = true := (List.mem_filter.mp hvmem).2
          have : v = nf := binding_unique_of_nodup hnd hvF hp
          rw [this] at hvk
          exact hk hvk
        have hl2 : dlookup a (update_functions m F).2.functions = some old := by
          rw [hfun, dlookup_dupdate_not_mem hnotin]
          exact hl
        rw [deltaKeep, hl2]
        simp [hEq]

theorem keySetEq_mem {l1 l2 : List Nat} (h : keySetEq l1 l2 = true) (a : Nat) :
    a ∈ l1 ↔ a ∈ l2 := by
  rw [keySetEq, Bool.and_eq_true, List.all_eq_true, List.all_eq_true] at h
  constructor
  · intro ha
    exact List.mem_of_elem_eq_true (h.1 a ha)
  · intro ha
    exact List.mem_of_elem_eq_true (h.2 a ha)

theorem exceptOkTrue_eq {e : Except PyExc Bool} (h : exceptOkTrue e = true) :
    e = .ok true := by
  cases e with
  | ok b => cases b with
    | true => rfl
    | false => exact absurd h (by simp [exceptOkTrue])
  | error x => exact absurd h (by simp [exceptOkTrue])

theorem foldlM_ok_of_steps {β : Type} {f : MetadataDelta → β → Except PyExc MetadataDelta} :
    ∀ {l : List β}, (∀ k ∈ l, ∀ d, f d k = .ok d) →
      ∀ d, l.foldlM f d = .ok d := by
  intro l
  induction l with
  | nil => intro _ d; rfl
  | cons b rest ih =>
      intro h d
      have hstep : f d b = .ok d := h b (List.mem_cons_self _ _) d
      have : (b :: rest).foldlM f d = f d b >>= rest.foldlM f := by
        rfl
      rw [this, hstep]
      exact ih (fun k hk => h k (List.mem_cons_of_mem _ hk)) d

/-- Structurally equal node maps make every node-diff step a no-op. -/
theorem node_delta_no_change {nnodes onodes : List (Nat × NodeMetadata)}
    (h : nodeMapsEq nnodes onodes = true) (d : MetadataDelta) :
    compute_node_delta d nnodes onodes = .ok d := by
  rw [nodeMapsEq, Bool.and_eq_true] at h
  obtain ⟨hkeys, hall⟩ := h
  rw [List.all_eq_true] at hall
  apply foldlM_ok_of_steps
  intro k hk d'
  have hknn : k ∈ dkeys nnodes := by
    rw [keyUnion, List.mem_append] at hk
    rcases hk with hk | hk
    · exact hk
    · have := (List.mem_filter.mp hk).1
      exact (keySetEq_mem hkeys k).mpr this
  obtain ⟨v, hv, _⟩ := dlookup_eq_some_of_mem_keys hknn
  have hkon : k ∈ dkeys onodes := (keySetEq_mem hkeys k).mp hknn
  obtain ⟨w, hw, _⟩ := dlookup_eq_some_of_mem_keys hkon
  have heq : nodeEq v w = .ok true := by
    have h1 := hall k hknn
    rw [hv, hw] at h1
    exact exceptOkTrue_eq h1
  simp only [nodeDeltaStep, hv, hw, heq]
  rfl

/-- One pass of the function-diff loop: each dirty address is appended to
exactly one of the three function sets according to its presence in the
two snapshots' function maps. -/
theorem function_delta_foldl (newF oldF : List (Nat × FunctionMetadata)) :
    ∀ (dirty : List Nat) (d : MetadataDelta),
      dirty.foldl (functionDeltaStep newF oldF) d =
        { d with
            functions_removed := d.functions_removed ++
              dirty.filter (fun a => (dlookup a newF).isNone),
            functions_added := d.functions_added ++
              dirty.filter (fun a => (dlookup a newF).isSome && (dlookup a oldF).isNone),
            functions_modified := d.functions_modified ++
              dirty.filter (fun a => (dlookup a newF).isSome && (dlookup a oldF).isSome) } := by
  intro dirty
  induction dirty with
  | nil => intro d; simp
  | cons b rest ih =>
      intro d
      rw [List.foldl_cons, ih]
      rcases hbn : dlookup b newF with _ | v <;> rcases hbo : dlookup b oldF with _ | w <;>
        simp [functionDeltaStep, hbn, hbo, List.filter_cons]

/-- With positive instruction sizes the walk's result does not depend on
the fuel, as long as the fuel dominates the byte length of the range. -/
theorem flattenGo_congr {instructions : List (Nat × Nat)}
    (hpos : ∀ p ∈ instructions, 1 ≤ p.2) :
    ∀ (fuel1 fuel2 address endAddress : Nat),
      endAddress - address ≤ fuel1 → endAddress - address ≤ fuel2 →
      flattenGo instructions address endAddress fuel1 =
        flattenGo instructions address endAddress fuel2 := by
  intro fuel1
  induction fuel1 with
  | zero =>
      intro fuel2 address endAddress h1 _
      have hle : ¬ address < endAddress := by omega
      cases fuel2 with
      | zero => rfl
      | succ g => simp [flattenGo, hle]
  | succ f ih =>
      intro fuel2 address endAddress h1 h2
      by_cases hlt : address < endAddress
      · have hf2 : ∃ g, fuel2 = g + 1 := by
          cases fuel2 with
          | zero => omega
          | succ g => exact ⟨g, rfl⟩
        obtain ⟨g, rfl⟩ := hf2
        have hstep : 1 ≤ (dlookup address instructions).getD 1 := by
          cases hl : dlookup address instructions with
          | none => simp
          | some s =>
              have := hpos _ (dlookup_mem hl)
              simpa using this
        have hrec := ih (g)
          (address + (dlookup address instructions).getD 1) endAddress
          (by omega) (by omega)
        simp only [flattenGo, if_pos hlt]
        rw [hrec]
      · cases fuel2 with
        | zero => simp [flattenGo, hlt]
        | succ g => simp [flattenGo, hlt]

theorem overlayDelta_eq :
    ∀ (delta : List (Nat × FunctionMetadata)) (nodes : List (Nat × NodeMetadata))
      (instructions : List (Nat × Nat)),
      overlayDelta delta nodes instructions =
        (nodesOverlay delta nodes, instructionsOverlay delta instructions) := by
  intro delta
  induction delta with
  | nil => intro nodes instructions; rfl
  | cons p rest ih =>
      intro nodes instructions
      rw [overlayDelta, List.foldl_cons]
      rw [show (rest.foldl
          (fun acc q =>
            (dupdate acc.1 q.2.nodes,
             q.2.nodes.foldl (fun ins r => dupdate ins r.2.instructions) acc.2))
          (dupdate nodes p.2.nodes,
           p.2.nodes.foldl (fun ins r => dupdate ins r.2.instructions) instructions)) =
        overlayDelta rest (dupdate nodes p.2.nodes)
          (p.2.nodes.foldl (fun ins r => dupdate ins r.2.instructions) instructions) from rfl]
      rw [ih]
      rfl

theorem mem_keys_nodesOverlay_left {a : Nat} :
    ∀ {delta : List (Nat × FunctionMetadata)} {nodes : List (Nat × NodeMetadata)},
      a ∈ dkeys nodes → a ∈ dkeys (nodesOverlay delta nodes) := by
  intro delta
  induction delta with
  | nil => intro nodes h; exact h
  | cons p rest ih =>
      intro nodes h
      exact ih (mem_keys_dupdate_left h)

theorem mem_keys_nodesOverlay_right {a : Nat} :
    ∀ {delta : List (Nat × FunctionMetadata)} {nodes : List (Nat × NodeMetadata)}
      {p : Nat × FunctionMetadata}, p ∈ delta → a ∈ dkeys p.2.nodes →
      a ∈ dkeys (nodesOverlay delta nodes) := by
  intro delta
  induction delta with
  | nil => intro nodes p hp; simp at hp
  | cons q rest ih =>
      intro nodes p hp ha
      rcases List.mem_cons.mp hp with hq | hq
      · subst hq
        show a ∈ dkeys (nodesOverlay rest (dupdate nodes p.2.nodes))
        exact mem_keys_nodesOverlay_left (mem_keys_dupdate_right ha)
      · exact ih hq ha

theorem mem_nodesOverlay {q : Nat × NodeMetadata} :
    ∀ {delta : List (Nat × FunctionMetadata)} {nodes : List (Nat × NodeMetadata)},
      q ∈ nodesOverlay delta nodes → q ∈ nodes ∨ ∃ p ∈ delta, q ∈ p.2.nodes := by
  intro delta
  induction delta with
  | nil => intro nodes h; left; exact h
  | cons p rest ih =>
      intro nodes h
      rcases ih h with h1 | h1
      · rcases mem_dupdate h1 with h2 | h2
        · left; exact h2
        · right; exact ⟨p, List.mem_cons_self _ _, h2⟩
      · obtain ⟨r, hr, hq⟩ := h1
        right
        exact ⟨r, List.mem_cons_of_mem _ hr, hq⟩

theorem length_le_nodesOverlay :
    ∀ {delta : List (Nat × FunctionMetadata)} {nodes : List (Nat × NodeMetadata)},
      nodes.length ≤ (nodesOverlay delta nodes).length := by
  intro delta
  induction delta with
  | nil => intro nodes; exact Nat.le_refl _
  | cons p rest ih =>
      intro nodes
      exact Nat.le_trans length_le_length_dupdate ih

theorem dkeys_nodesOverlay_of_length_eq :
    ∀ {delta : List (Nat × FunctionMetadata)} {nodes : List (Nat × NodeMetadata)},
      (nodesOverlay delta nodes).length = nodes.length →
      dkeys (nodesOverlay delta nodes) = dkeys nodes := by
  intro delta
  induction delta with
  | nil => intro nodes _; rfl
  | cons p rest ih =>
      intro nodes hlen
      have h1 : nodes.length ≤ (dupdate nodes p.2.nodes).length := length_le_length_dupdate
      have h2 : (dupdate nodes p.2.nodes).length ≤
          (nodesOverlay rest (dupdate nodes p.2.nodes)).length := length_le_nodesOverlay
      have hstep : nodesOverlay (p :: rest) nodes =
          nodesOverlay rest (dupdate nodes p.2.nodes) := rfl
      rw [hstep] at hlen ⊢
      have heq : (dupdate nodes p.2.nodes).length = nodes.length := by omega
      rw [ih (by omega), dkeys_dupdate_of_length_eq heq]

theorem mem_keys_nodeInstrOverlay_left {a : Nat} :
    ∀ {nodes : List (Nat × NodeMetadata)} {ins : List (Nat × Nat)},
      a ∈ dkeys ins → a ∈ dkeys (nodeInstrOverlay nodes ins) := by
  intro nodes
  induction nodes with
  | nil => intro ins h; exact h
  | cons q rest ih =>
      intro ins h
      exact ih (mem_keys_dupdate_left h)

theorem mem_keys_nodeInstrOverlay_right {a : Nat} :
    ∀ {nodes : List (Nat × NodeMetadata)} {ins : List (Nat × Nat)}
      {q : Nat × NodeMetadata}, q ∈ nodes → a ∈ dkeys q.2.instructions →
      a ∈ dkeys (nodeInstrOverlay nodes ins) := by
  intro nodes
  induction nodes with
  | nil => intro ins q hq; simp at hq
  | cons r rest ih =>
      intro ins q hq ha
      rcases List.mem_cons.mp hq with h1 | h1
      · subst h1
        show a ∈ dkeys (nodeInstrOverlay rest (dupdate ins q.2.instructions))
        exact mem_keys_nodeInstrOverlay_left (mem_keys_dupdate_right ha)
      · exact ih h1 ha

theorem mem_keys_instructionsOverlay_left {a : Nat} :
    ∀ {delta : List (Nat × FunctionMetadata)} {ins : List (Nat × Nat)},
      a ∈ dkeys ins → a ∈ dkeys (instructionsOverlay delta ins) := by
  intro delta
  induction delta with
  | nil => intro ins h; exact h
  | cons p rest ih =>
      intro ins h
      exact ih (mem_keys_nodeInstrOverlay_left h)

theorem mem_keys_instructionsOverlay_right {a : Nat} :
    ∀ {delta : List (Nat × FunctionMetadata)} {ins : List (Nat × Nat)}
      {p : Nat × FunctionMetadata} {q : Nat × NodeMetadata},
      p ∈ delta → q ∈ p.2.nodes → a ∈ dkeys q.2.instructions →
      a ∈ dkeys (instructionsOverlay delta ins) := by
  intro delta
  induction delta with
  | nil => intro ins p q hp; simp at hp
  | cons r rest ih =>
      intro ins p q hp hq ha
      rcases List.mem_cons.mp hp with h1 | h1
      · subst h1
        show a ∈ dkeys (instructionsOverlay rest (nodeInstrOverlay p.2.nodes ins))
        exact mem_keys_instructionsOverlay_left (mem_keys_nodeInstrOverlay_right hq ha)
      · exact ih h1 hq ha

theorem getD_eq_get {l : List Nat} {i : Nat} (h : i < l.length) :
    l.getD i 0 = l.get ⟨i, h⟩ := by
  simp [List.getD_eq_getElem?_getD, List.getElem?_eq_getElem h]

theorem sorted_getD_mono {l : List Nat} (hs : List.Sorted (· ≤ ·) l) {i j : Nat}
    (hij : i ≤ j) (hj : j < l.length) : l.getD i 0 ≤ l.getD j 0 := by
  have hi : i < l.length := by omega
  rw [getD_eq_get hi, getD_eq_get hj]
  rcases Nat.lt_or_ge i j with hlt | hge
  · exact List.Sorted.rel_get_of_lt hs hlt
  · have : i = j := by omega
    subst this
    exact Nat.le_refl _

theorem mem_iff_getD {l : List Nat} {a : Nat} :
    a ∈ l ↔ ∃ i, i < l.length ∧ l.getD i 0 = a := by
  rw [List.mem_iff_get]
  constructor
  · rintro ⟨⟨i, hi⟩, hget⟩
    exact ⟨i, hi, by rw [getD_eq_get hi]; exact hget⟩
  · rintro ⟨i, hi, hget⟩
    exact ⟨⟨i, hi⟩, by rw [← getD_eq_get hi]; exact hget⟩

/-- The loop invariant of the embedded `bisect_right`: starting from a
window `[lo, hi)` whose left flank is all `≤ x` and right flank all
`> x`, the search lands on the boundary index. -/
theorem bisectGo_spec (l : List Nat) (x : Nat) (hs : List.Sorted (· ≤ ·) l) :
    ∀ (fuel lo hi : Nat), lo ≤ hi → hi ≤ l.length → hi - lo ≤ fuel →
      (∀ i, i < lo → l.getD i 0 ≤ x) →
      (∀ i, hi ≤ i → i < l.length → x < l.getD i 0) →
      lo ≤ bisectGo l x fuel lo hi ∧ bisectGo l x fuel lo hi ≤ hi ∧
      (∀ i, i < bisectGo l x fuel lo hi → l.getD i 0 ≤ x) ∧
      (∀ i, bisectGo l x fuel lo hi ≤ i → i < l.length → x < l.getD i 0) := by
  intro fuel
  induction fuel with
  | zero =>
      intro lo hi h1 h2 h3 hlow hhigh
      have hle : lo = hi := by omega
      refine ⟨Nat.le_refl _, by rw [bisectGo]; omega, hlow, ?_⟩
      intro i hri hil
      exact hhigh i (by rw [bisectGo] at hri; omega) hil
  | succ f ih =>
      intro lo hi h1 h2 h3 hlow hhigh
      by_cases hlt : lo < hi
      · have hmidlo : lo ≤ (lo + hi) / 2 := by
          rw [Nat.le_div_iff_mul_le (by norm_num : 0 < 2)]
          omega
        have hmidhi : (lo + hi) / 2 < hi := by
          rw [Nat.div_lt_iff_lt_mul (by norm_num : 0 < 2)]
          omega
        have hunfold : bisectGo l x (f + 1) lo hi =
            if x < l.getD ((lo + hi) / 2) 0 then bisectGo l x f lo ((lo + hi) / 2)
            else bisectGo l x f ((lo + hi) / 2 + 1) hi := by
          simp only [bisectGo, if_pos hlt]
        rw [hunfold]
        by_cases hx : x < l.getD ((lo + hi) / 2) 0
        · rw [if_pos hx]
          have hhigh' : ∀ i, (lo + hi) / 2 ≤ i → i < l.length → x < l.getD i 0 := by
            intro i hmi hil
            exact Nat.lt_of_lt_of_le hx (sorted_getD_mono hs hmi hil)
          obtain ⟨g1, g2, g3, g4⟩ :=
            ih lo ((lo + hi) / 2) hmidlo (by omega) (by omega) hlow hhigh'
          exact ⟨g1, by omega, g3, g4⟩
        · rw [if_neg hx]
          have hmx : l.getD ((lo + hi) / 2) 0 ≤ x := by omega
          have hlow' : ∀ i, i < (lo + hi) / 2 + 1 → l.getD i 0 ≤ x := by
            intro i hi1
            exact Nat.le_trans (sorted_getD_mono hs (by omega) (by omega)) hmx
          obtain ⟨g1, g2, g3, g4⟩ :=
            ih ((lo + hi) / 2 + 1) hi (by omega) h2 (by omega) hlow' hhigh
          exact ⟨by omega, g2, g3, g4⟩
      · have hunfold : bisectGo l x (f + 1) lo hi = lo := by
          simp only [bisectGo, if_neg hlt]
        rw [hunfold]
        refine ⟨Nat.le_refl _, h1, hlow, ?_⟩
        intro i hri hil
        exact hhigh i (by omega) hil

/-- `bisect_right` on a sorted list: everything strictly before the
returned index is `≤ x`, everything from it on is `> x`. -/
theorem bisect_right_spec (l : List Nat) (x : Nat) (hs : List.Sorted (· ≤ ·) l) :
    bisect_right l x ≤ l.length ∧
    (∀ i, i < bisect_right l x → l.getD i 0 ≤ x) ∧
    (∀ i, bisect_right l x ≤ i → i < l.length → x < l.getD i 0) := by
  obtain ⟨_, g2, g3, g4⟩ :=
    bisectGo_spec l x hs l.length 0 l.length (Nat.zero_le _) (Nat.le_refl _)
      (by omega) (by omega) (by omega)
  exact ⟨g2, g3, g4⟩

theorem refresh_lookup_nodes (m : DatabaseMetadata) :
    (refresh_lookup m).nodes = m.nodes := by
  rw [refresh_lookup]
  split <;> rfl

theorem refresh_lookup_functions (m : DatabaseMetadata) :
    (refresh_lookup m).functions = m.functions := by
  rw [refresh_lookup]
  split <;> rfl

theorem refresh_lookup_addresses (m : DatabaseMetadata)
    (h : m.stale_lookup = false → m.node_addresses = sortedKeys m.nodes) :
    (refresh_lookup m).node_addresses = sortedKeys m.nodes := by
  rw [refresh_lookup]
  by_cases hs : m.stale_lookup
  · rw [if_pos hs]
  · rw [if_neg hs]
    exact h (eq_false_of_ne_true hs)

/-- The slow path of `get_node` finds the unique stored node containing
the target address, provided the store is well formed. -/
theorem get_node_slow_found (m1 : DatabaseMetadata) (k : Nat) (N : NodeMetadata) (a : Nat)
    (hla : m1.node_addresses = sortedKeys m1.nodes)
    (hkeyed : ∀ p ∈ m1.nodes, p.2.address = p.1)
    (hnd : (dkeys m1.nodes).Nodup)
    (hpos : ∀ p ∈ m1.nodes, 0 < p.2.size)
    (hdisj : ∀ p ∈ m1.nodes, ∀ q ∈ m1.nodes, p.1 ≠ q.1 →
      (q.2.address + q.2.size ≤ p.2.address ∨ p.2.address + p.2.size ≤ q.2.address))
    (hmem : (k, N) ∈ m1.nodes) (h1 : N.address ≤ a) (h2 : a < N.address + N.size) :
    (get_node_slow m1 a).1 = .ok N := by
  have hs : List.Sorted (· ≤ ·) m1.node_addresses := by
    rw [hla, sortedKeys]
    exact List.sorted_insertionSort _ _
  have hmemla : ∀ b, b ∈ m1.node_addresses ↔ b ∈ dkeys m1.nodes := by
    intro b
    rw [hla, sortedKeys]
    exact (List.perm_insertionSort _ _).mem_iff
  have hkaddr : N.address = k := hkeyed (k, N) hmem
  have hka : k ≤ a := by omega
  have hk_la : k ∈ m1.node_addresses :=
    (hmemla k).mpr (List.mem_map_of_mem Prod.fst hmem)
  obtain ⟨ik, hiklen, hikv⟩ := mem_iff_getD.mp hk_la
  obtain ⟨hrlen, hlowr, hhir⟩ := bisect_right_spec m1.node_addresses a hs
  have hik_lt_r : ik < bisect_right m1.node_addresses a := by
    by_contra hc
    have := hhir ik (by omega) hiklen
    omega
  obtain ⟨j, hj⟩ : ∃ j, bisect_right m1.node_addresses a = j + 1 := by
    cases hr : bisect_right m1.node_addresses a with
    | zero => omega
    | succ j => exact ⟨j, rfl⟩
  have hjlen : j < m1.node_addresses.length := by omega
  have hkey_le : m1.node_addresses.getD j 0 ≤ a := hlowr j (by omega)
  have hkey_la : m1.node_addresses.getD j 0 ∈ m1.node_addresses :=
    mem_iff_getD.mpr ⟨j, hjlen, rfl⟩
  obtain ⟨M, hMl, hMmem⟩ :=
    dlookup_eq_some_of_mem_keys ((hmemla _).mp hkey_la)
  have hMaddr : M.address = m1.node_addresses.getD j 0 := hkeyed _ hMmem
  have hkey_eq : m1.node_addresses.getD j 0 = k := by
    by_contra hne
    have hik_le_j : ik ≤ j := by omega
    have hk_le_key : k ≤ m1.node_addresses.getD j 0 := by
      have := sorted_getD_mono hs hik_le_j hjlen
      omega
    have hMpos : 0 < M.size := hpos _ hMmem
    have hdd := hdisj (m1.node_addresses.getD j 0, M) hMmem (k, N) hmem (by simpa using hne)
    simp only at hdd
    rcases hdd with hdd | hdd <;> omega
  have hlookN : dlookup (m1.node_addresses.getD j 0) m1.nodes = some N := by
    rw [hkey_eq]
    exact dlookup_of_mem_nodup hmem hnd
  have hpi : pyIndexPred m1.node_addresses (bisect_right m1.node_addresses a) =
      some (m1.node_addresses.getD j 0) := by
    rw [hj]
    show m1.node_addresses.get? j = some (m1.node_addresses.getD j 0)
    rw [List.get?_eq_get hjlen, getD_eq_get hjlen]
  have hcontains : nodeContains N a = true := by
    rw [nodeContains]
    simp [h1, h2]
  have hfinal : get_node_slow m1 a = (.ok N, { m1 with last_node := some N }) := by
    rw [get_node_slow.eq_def, hpi]
    rw [List.getD_eq_getElem?_getD] at hlookN
    simp [hlookN, hcontains]
  rw [hfinal]

/-- The slow path of `get_node` fails with the `ValueError` when no
stored node's range contains the target address. -/
theorem get_node_slow_miss (m1 : DatabaseMetadata) (a : Nat)
    (hla : m1.node_addresses = sortedKeys m1.nodes)
    (_hkeyed : ∀ p ∈ m1.nodes, p.2.address = p.1)
    (hnone : ∀ p ∈ m1.nodes, ¬(p.2.address ≤ a ∧ a < p.2.address + p.2.size)) :
    (get_node_slow m1 a).1 = .error .valueError := by
  have hs : List.Sorted (· ≤ ·) m1.node_addresses := by
    rw [hla, sortedKeys]
    exact List.sorted_insertionSort _ _
  have hmemla : ∀ b, b ∈ m1.node_addresses ↔ b ∈ dkeys m1.nodes := by
    intro b
    rw [hla, sortedKeys]
    exact (List.perm_insertionSort _ _).mem_iff
  obtain ⟨hrlen, hlowr, hhir⟩ := bisect_right_spec m1.node_addresses a hs
  have hmiss : ∀ key M, dlookup key m1.nodes = some M → nodeContains M a = false := by
    intro key M hlook
    have hN := hnone _ (dlookup_mem hlook)
    rw [nodeContains]
    by_cases hp1 : M.address ≤ a
    · by_cases hp2 : a < M.address + M.size
      · exact absurd ⟨hp1, hp2⟩ hN
      · simp [hp2]
    · simp [hp1]
  cases hr : bisect_right m1.node_addresses a with
  | zero =>
      cases hlast : m1.node_addresses.getLast? with
      | none =>
          have hpi : pyIndexPred m1.node_addresses (bisect_right m1.node_addresses a) =
              none := by
            rw [hr]
            exact hlast
          have : get_node_slow m1 a = (.error .valueError, m1) := by
            rw [get_node_slow.eq_def, hpi]
          rw [this]
      | some kmax =>
          have hkla : kmax ∈ m1.node_addresses := List.mem_of_mem_getLast? hlast
          obtain ⟨M, hMl, hMmem⟩ :=
            dlookup_eq_some_of_mem_keys ((hmemla kmax).mp hkla)
          have hpi : pyIndexPred m1.node_addresses (bisect_right m1.node_addresses a) =
              some kmax := by
            rw [hr]
            exact hlast
          have hnc : nodeContains M a = false := hmiss kmax M hMl
          have : get_node_slow m1 a = (.error .valueError, m1) := by
            rw [get_node_slow.eq_def, hpi]
            simp [hMl, hnc]
          rw [this]
  | succ j =>
      have hjlen : j < m1.node_addresses.length := by omega
      have hkey_la : m1.node_addresses.getD j 0 ∈ m1.node_addresses :=
        mem_iff_getD.mpr ⟨j, hjlen, rfl⟩
      obtain ⟨M, hMl, hMmem⟩ :=
        dlookup_eq_some_of_mem_keys ((hmemla _).mp hkey_la)
      have hpi : pyIndexPred m1.node_addresses (bisect_right m1.node_addresses a) =
          some (m1.node_addresses.getD j 0) := by
        rw [hr]
        show m1.node_addresses.get? j = some (m1.node_addresses.getD j 0)
        rw [List.get?_eq_get hjlen, getD_eq_get hjlen]
      have hnc : nodeContains M a = false := hmiss _ M hMl
      have : get_node_slow m1 a = (.error .valueError, m1) := by
        rw [get_node_slow.eq_def, hpi]
        rw [List.getD_eq_getElem?_getD] at hMl
        simp [hMl, hnc]
      rw [this]

/-! ### Claim theorems -/

/-- C4: computing a `MetadataDelta` of a snapshot `S` against an absent
(`None`) old snapshot yields `nodes_added = keys(S.nodes)` and
`functions_added = keys(S.functions)`, with the removed/modified node and
function sets (and the dirty working set) all empty. -/
theorem c4_delta_no_baseline (S : DatabaseMetadata) :
    compute_delta S none =
      .ok { nodes_added := dkeys S.nodes, nodes_removed := [],
            nodes_modified := [], functions_added := dkeys S.functions,
            functions_removed := [], functions_modified := [],
            dirty_functions := [] } := rfl

/-- C2 (code bug): the node-diff phase cannot classify any added, removed
or structurally changed node: its dirty-set update reads the attribute
`functions` off a `NodeMetadata`, which defines only the singular
`function`, so the very first address that needs classification raises
`AttributeError` and `MetadataDelta` construction fails.  Here: one node
added at address `20` against an empty old snapshot. -/
theorem c2_node_delta_crash :
    compute_delta { nodes := [(20, exNodeC)] } (some {}) =
      .error .attributeError := rfl

/-- C10: `get_node` consults the single-slot memo before anything else,
so whenever the memo holds `N` and the queried address falls inside `N`,
the memoized node is returned — with the whole state (including the memo)
untouched — no matter what `nodes`, `functions` or the stale flag
currently say.  The memo is never invalidated by population changes. -/
theorem c10_memo_fast_path (m : DatabaseMetadata) (N : NodeMetadata) (a : Nat)
    (hm : m.last_node = some N) (h1 : N.address ≤ a)
    (h2 : a < N.address + N.size) :
    get_node m a = (.ok N, m) := by
  have hstep : get_node m a =
      if nodeContains N a then (.ok N, m)
      else get_node_slow (refresh_lookup m) a := by
    rw [get_node.eq_def, hm]
  rw [hstep, if_pos (by simp [nodeContains, h1, h2])]

/-- Witness for C10: a state whose memo still holds `exNodeC` although
the node store and function map have been emptied and the lookup index
marked stale; the memoized node is still returned for address `21`. -/
theorem c10_memo_fast_path_witness :
    get_node { nodes := [], functions := [], stale_lookup := true,
               last_node := some exNodeC } 21 =
      (.ok exNodeC, { nodes := [], functions := [], stale_lookup := true,
                      last_node := some exNodeC }) :=
  c10_memo_fast_path _ exNodeC 21 rfl (by decide) (by decide)

/-- C8: calling `refresh` while a worker is in flight trips the
`assert self._refresh_worker == None` (the `RefreshAlreadyRunning` fatal
assertion); and `abort_refresh` leaves every field unchanged except the
stop flag, which it sets exactly when a worker is currently alive (and
clears — the stray-flag cleanup — otherwise). -/
theorem c8_refresh_guard_and_abort :
    (∀ (m : DatabaseMetadata) (w : Worker) (fa : Option (List Nat)) (db : List Nat),
       m.refresh_worker = some w → refresh m fa db = .error .assertionError) ∧
    (∀ m : DatabaseMetadata, abort_refresh m = { m with stop_threads := workerAlive m }) := by
  constructor
  · intro m w fa db hw
    rw [refresh.eq_def, hw]
  · intro m
    rw [abort_refresh]
    by_cases h : workerAlive m
    · rw [if_pos h, h]
    · rw [if_neg h, eq_false_of_ne_true h]

/-- Witness for C8: with a live worker in the slot, `refresh` fails with
the assertion, and `abort_refresh` on the same state sets the stop flag. -/
theorem c8_refresh_guard_and_abort_witness :
    refresh { refresh_worker := some { alive := true } } none [] = .error .assertionError ∧
    abort_refresh { refresh_worker := some { alive := true } } =
      { refresh_worker := some { alive := true }, stop_threads := true } :=
  ⟨c8_refresh_guard_and_abort.1 _ { alive := true } none [] rfl,
   c8_refresh_guard_and_abort.2 _⟩

/-- Counterexample for C7: a refresh that reads the cancellation flag as
set at its very first opportunity does deliver the `None` sentinel, but it
does *not* leave the maps in their pre-refresh state: the first chunk has
already been merged when the flag is checked (the check follows the merge
inside the loop body).  Here the pre-refresh function map is empty and the
post-abort map holds the chunk's function. -/
theorem c7_counterexample :
    (async_refresh {} [[(20, exFuncC)]] [true]).1 = none ∧
    (async_refresh {} [[(20, exFuncC)]] [true]).2.functions ≠
      ({} : DatabaseMetadata).functions := by
  refine ⟨rfl, ?_⟩
  intro h
  have hlen := congrArg List.length h
  revert hlen
  decide

/-- C7 as amended: the aborted-refresh future always yields the `None`
sentinel exactly when collection observed the cancellation flag (so it is
distinct from the snapshot delivered on natural completion); but
cancellation is observed only at the post-chunk check, so a refresh whose
first flag read is already `True` ends with exactly its first chunk
merged (and the lookup lists refreshed), not with the pre-refresh maps. -/
theorem c7_abort_sentinel :
    (∀ (m : DatabaseMetadata) (chunksData : List (List (Nat × FunctionMetadata)))
       (stops : List Bool),
       ((async_refresh m chunksData stops).1 = none ↔
         (async_collect_metadata m chunksData stops).1 = false)) ∧
    (∀ (m : DatabaseMetadata) (c : List (Nat × FunctionMetadata))
       (cs : List (List (Nat × FunctionMetadata))) (ss : List Bool),
       async_refresh m (c :: cs) (true :: ss) =
         (none, { refresh_lookup (update_functions m c).2 with refresh_worker := none })) := by
  constructor
  · intro m chunksData stops
    rw [async_refresh]
    rcases async_collect_metadata m chunksData stops with ⟨b, m1⟩
    cases b <;> simp
  · intro m c cs ss
    rfl

/-- Counterexample for C6: the synchronous deletion pass of `refresh`
does not preserve "`nodes` is exactly the union of all `function.nodes`".
Starting from a state satisfying all three claimed invariants (one
function at `20` owning one node), a deletion pass that drops the
function (the database reports no functions) leaves its node and
instructions behind in the flattened maps. -/
theorem c6_counterexample :
    databaseInvariants exInvariant ∧
    ¬ databaseInvariants (refreshDeletePass [] exInvariant) := by
  constructor
  · refine ⟨fun _ => ⟨rfl, rfl⟩, ⟨?_, ?_⟩, ⟨?_, ?_⟩⟩ <;> decide
  · intro h
    have h2 := h.2.1.1
    have : (20 : Nat) ∈ dkeys (refreshDeletePass [] exInvariant).nodes := by decide
    have h3 := h2 20 this
    revert h3
    decide

/-- Counterexample for C1: with two *overlapping* stored nodes — node `A`
at `[0, 10)` and node `B` at `[5, 7)` — and a perfectly fresh lookup
index, address `8` lies inside stored node `A`, yet `get_node` raises its
`ValueError`: the bisection probes only the closest node start at or
below the target (here `B`), and `8` is past `B`'s end.  So the claim's
lookup guarantee does not hold for arbitrary stored nodes. -/
theorem c1_counterexample :
    (0, exNodeA) ∈ exOverlap.nodes ∧
    exOverlap.stale_lookup = false ∧
    exOverlap.node_addresses = sortedKeys exOverlap.nodes ∧
    exNodeA.address ≤ 8 ∧ 8 < exNodeA.address + exNodeA.size ∧
    (get_node exOverlap 8).1 = .error .valueError := by
  refine ⟨?_, rfl, ?_, ?_, ?_, rfl⟩ <;> decide

/-- C1 (amended): lookup correctness over a well-formed node store
(lookup index fresh, nodes keyed by their own address without duplicates,
sizes positive — as `_refresh_nodes` guarantees by skipping empty blocks —
ranges pairwise non-overlapping, and the memo empty or holding a stored
node): `get_node(a)` returns the node whose range contains `a`, and fails
with the `ValueError` (`AddressNotMapped`) when no stored node's range
contains `a`. -/
theorem c1_lookup_correctness (m : DatabaseMetadata) (h : wfNodeStore m) :
    (∀ (k : Nat) (N : NodeMetadata), (k, N) ∈ m.nodes → ∀ a : Nat,
       N.address ≤ a → a < N.address + N.size → (get_node m a).1 = .ok N) ∧
    (∀ a : Nat, (∀ p ∈ m.nodes, ¬(p.2.address ≤ a ∧ a < p.2.address + p.2.size)) →
       (get_node m a).1 = .error .valueError) := by
  obtain ⟨hfr, hkeyed, hnd, hpos, hdisj, hmemo⟩ := h
  have hnodes1 : (refresh_lookup m).nodes = m.nodes := refresh_lookup_nodes m
  have hla1 : (refresh_lookup m).node_addresses = sortedKeys (refresh_lookup m).nodes := by
    rw [hnodes1]
    exact refresh_lookup_addresses m hfr
  have hkeyed1 : ∀ p ∈ (refresh_lookup m).nodes, p.2.address = p.1 := by
    rw [hnodes1]; exact hkeyed
  have hnd1 : (dkeys (refresh_lookup m).nodes).Nodup := by
    rw [hnodes1]; exact hnd
  have hpos1 : ∀ p ∈ (refresh_lookup m).nodes, 0 < p.2.size := by
    rw [hnodes1]; exact hpos
  have hdisj1 : ∀ p ∈ (refresh_lookup m).nodes, ∀ q ∈ (refresh_lookup m).nodes,
      p.1 ≠ q.1 →
      (q.2.address + q.2.size ≤ p.2.address ∨ p.2.address + p.2.size ≤ q.2.address) := by
    rw [hnodes1]; exact hdisj
  constructor
  · intro k N hmem a h1 h2
    cases hln : m.last_node with
    | none =>
        have hstep : get_node m a = get_node_slow (refresh_lookup m) a := by
          rw [get_node.eq_def, hln]
        rw [hstep]
        exact get_node_slow_found _ k N a hla1 hkeyed1 hnd1 hpos1 hdisj1
          (by rw [hnodes1]; exact hmem) h1 h2
    | some M =>
        have hstep : get_node m a =
            if nodeContains M a then (.ok M, m)
            else get_node_slow (refresh_lookup m) a := by
          rw [get_node.eq_def, hln]
        rcases hmemo with hmo | ⟨p, hp, hpe⟩
        · rw [hln] at hmo
          exact absurd hmo (by simp)
        · have hM : p.2 = M := by
            rw [hln] at hpe
            exact ((Option.some.injEq _ _).mp hpe).symm
          by_cases hc : nodeContains M a
          · have hc' : M.address ≤ a ∧ a < M.address + M.size := by
              simpa [nodeContains] using hc
            by_cases hpk : p.1 = k
            · have hpair : (p.1, p.2) ∈ m.nodes := by simpa using hp
              rw [hpk] at hpair
              have hlp := dlookup_of_mem_nodup hpair hnd
              have hlN := dlookup_of_mem_nodup hmem hnd
              rw [hlp] at hlN
              have hpN : p.2 = N := (Option.some.injEq _ _).mp hlN
              rw [hstep, if_pos hc]
              show Except.ok M = Except.ok N
              rw [← hM, hpN]
            · exfalso
              have hdd := hdisj p hp (k, N) hmem (by simpa using hpk)
              have hpaddr : N.address = k := hkeyed (k, N) hmem
              simp only at hdd
              rw [hM] at hdd
              rcases hdd with hdd | hdd <;> omega
          · rw [hstep, if_neg hc]
            exact get_node_slow_found _ k N a hla1 hkeyed1 hnd1 hpos1 hdisj1
              (by rw [hnodes1]; exact hmem) h1 h2
  · intro a hnone
    have hnone1 : ∀ p ∈ (refresh_lookup m).nodes,
        ¬(p.2.address ≤ a ∧ a < p.2.address + p.2.size) := by
      rw [hnodes1]; exact hnone
    cases hln : m.last_node with
    | none =>
        have hstep : get_node m a = get_node_slow (refresh_lookup m) a := by
          rw [get_node.eq_def, hln]
        rw [hstep]
        exact get_node_slow_miss _ a hla1 hkeyed1 hnone1
    | some M =>
        have hstep : get_node m a =
            if nodeContains M a then (.ok M, m)
            else get_node_slow (refresh_lookup m) a := by
          rw [get_node.eq_def, hln]
        rcases hmemo with hmo | ⟨p, hp, hpe⟩
        · rw [hln] at hmo
          exact absurd hmo (by simp)
        · have hM : p.2 = M := by
            rw [hln] at hpe
            exact ((Option.some.injEq _ _).mp hpe).symm
          have hnc : ¬ (nodeContains M a = true) := by
            intro hcc
            have hc' : M.address ≤ a ∧ a < M.address + M.size := by
              simpa [nodeContains] using hcc
            rw [← hM] at hc'
            exact hnone p hp hc'
          rw [hstep, if_neg hnc]
          exact get_node_slow_miss _ a hla1 hkeyed1 hnone1

/-- Witness for C1 (amended): a well-formed store with disjoint nodes
`[0, 10)` and `[20, 24)` and a warm memo; the address `8` resolves to the
covering node, and the gap address `15` raises the `ValueError`. -/
theorem c1_lookup_correctness_witness :
    (get_node exDisjoint 8).1 = .ok exNodeA ∧
    (get_node exDisjoint 15).1 = .error .valueError := by
  have hwf : wfNodeStore exDisjoint :=
    ⟨fun _ => rfl, by decide, by decide, by decide, by decide,
     Or.inr ⟨(20, exNodeC), by decide, rfl⟩⟩
  exact ⟨(c1_lookup_correctness exDisjoint hwf).1 0 exNodeA (by decide) 8
          (by decide) (by decide),
         (c1_lookup_correctness exDisjoint hwf).2 15 (by decide)⟩

/-- C5: the merge step is idempotent.  After merging a fresh metadata map
`F` once, merging a structurally identical copy of `F` again returns an
empty delta map and leaves the whole state — in particular the
`functions`, `nodes` and `instructions` maps — unchanged. -/
theorem c5_merge_idempotent (m : DatabaseMetadata)
    (F : List (Nat × FunctionMetadata)) (hnd : (dkeys F).Nodup) :
    (update_functions (update_functions m F).2 F).1 = [] ∧
    (update_functions (update_functions m F).2 F).2 = (update_functions m F).2 := by
  have hdelta : F.filter (deltaKeep (update_functions m F).2.functions) = [] :=
    List.filter_eq_nil_iff.mpr (fun p hp => by
      rw [deltaKeep_false_after_merge m F hnd p hp]
      simp)
  have key : ∀ m1 : DatabaseMetadata, F.filter (deltaKeep m1.functions) = [] →
      update_functions m1 F = ([], m1) := by
    intro m1 hd
    simp only [update_functions]
    rw [hd]
    simp [overlayDelta, dupdate]
  rw [key _ hdelta]
  exact ⟨rfl, rfl⟩

/-- C3: (1) the function-diff phase iterates exactly over the dirty
addresses handed to it, classifying each as removed when absent from the
new snapshot's functions, added when absent from the old snapshot's
functions, and modified — with no structural recheck — whenever it is
present in both; addresses outside the dirty set reach no bucket, and the
working set is disposed of.  (2) Consequently, for two snapshots whose
node maps are structurally equal (so the node diff marks nothing dirty),
the computed delta has an empty `functions_modified` — even when the two
function maps differ, e.g. by a function rename. -/
theorem c3_function_delta :
    (∀ (dirty : List Nat) (newF oldF : List (Nat × FunctionMetadata)),
       compute_function_delta { dirty_functions := dirty } newF oldF =
         { functions_removed := dirty.filter (fun a => (dlookup a newF).isNone),
           functions_added :=
             dirty.filter (fun a => (dlookup a newF).isSome && (dlookup a oldF).isNone),
           functions_modified :=
             dirty.filter (fun a => (dlookup a newF).isSome && (dlookup a oldF).isSome),
           nodes_added := [], nodes_removed := [], nodes_modified := [],
           dirty_functions := [] }) ∧
    (∀ new_metadata old_metadata : DatabaseMetadata,
       nodeMapsEq new_metadata.nodes old_metadata.nodes = true →
       compute_delta new_metadata (some old_metadata) = .ok {} ∧
       (({} : MetadataDelta)).functions_modified = []) := by
  constructor
  · intro dirty newF oldF
    rw [compute_function_delta, function_delta_foldl]
    rfl
  · intro new_metadata old_metadata h
    refine ⟨?_, rfl⟩
    rw [compute_delta]
    rw [node_delta_no_change h {}]
    rfl

/-- Witness for C3: two snapshots sharing the node map `{20 ↦ exNodeC}`
but disagreeing on the function's name (`exFuncC` vs `exFuncRenamed`);
the delta communicates no modified function. -/
theorem c3_function_delta_witness :
    nodeMapsEq [(20, exNodeC)] [(20, exNodeC)] = true ∧
    compute_delta
        { nodes := [(20, exNodeC)], functions := [(20, exFuncC)] }
        (some { nodes := [(20, exNodeC)], functions := [(20, exFuncRenamed)] }) =
      .ok {} :=
  ⟨by decide,
   (c3_function_delta.2
     { nodes := [(20, exNodeC)], functions := [(20, exFuncC)] }
     { nodes := [(20, exNodeC)], functions := [(20, exFuncRenamed)] }
     (by decide)).1⟩

/-- C9: flattening correctness.  (1) With the instruction map
`{0x10: 2, 0x12: 4}`, `flatten_blocks([(0x10, 6)])` returns exactly
`[0x10, 0x12]`.  In general a block's walk is the canonically fueled walk
of its byte range, where (2) a walk past the end produces nothing, (3) a
position with no instruction-size entry contributes one output address
and advances by exactly one byte, (4) a mapped position contributes one
output address and advances by its recorded size (instruction sizes being
positive), and (5) output is produced in block order across all blocks
concatenated. -/
theorem c9_flatten_correct :
    flatten_blocks { instructions := [(16, 2), (18, 4)] } [(16, 6)] = some [16, 18] ∧
    (∀ (ins : List (Nat × Nat)) (a sz : Nat),
       flattenBlock ins a sz = flattenWalk ins a (a + sz)) ∧
    (∀ (ins : List (Nat × Nat)) (a e : Nat), e ≤ a → flattenWalk ins a e = some []) ∧
    (∀ (ins : List (Nat × Nat)) (a e : Nat), a < e → dlookup a ins = none →
       flattenWalk ins a e = (flattenWalk ins (a + 1) e).map (a :: ·)) ∧
    (∀ (ins : List (Nat × Nat)) (a e s : Nat), (∀ p ∈ ins, 1 ≤ p.2) → a < e →
       dlookup a ins = some s →
       flattenWalk ins a e = (flattenWalk ins (a + s) e).map (a :: ·)) ∧
    (∀ (m : DatabaseMetadata) (a sz : Nat) (rest : List (Nat × Nat)),
       flatten_blocks m ((a, sz) :: rest) =
         (flattenBlock m.instructions a sz).bind
           (fun f => (flatten_blocks m rest).map (f ++ ·))) := by
  refine ⟨rfl, ?_, ?_, ?_, ?_, ?_⟩
  · intro ins a sz
    rw [flattenBlock, flattenWalk, Nat.add_sub_cancel_left]
  · intro ins a e he
    have h0 : e - a = 0 := by omega
    have hlt : ¬ a < e := by omega
    rw [flattenWalk, h0]
    simp [flattenGo, hlt]
  · intro ins a e hlt hnone
    have h1 : e - a = (e - (a + 1)) + 1 := by omega
    rw [flattenWalk, flattenWalk, h1]
    simp only [flattenGo, if_pos hlt, hnone, Option.getD_none]
    cases flattenGo ins (a + 1) e (e - (a + 1)) <;> rfl
  · intro ins a e s hpos hlt hsome
    have hs1 : 1 ≤ s := by
      have := hpos _ (dlookup_mem hsome)
      simpa using this
    have h1 : e - a = (e - (a + 1)) + 1 := by omega
    rw [flattenWalk, flattenWalk, h1]
    simp only [flattenGo, if_pos hlt, hsome, Option.getD_some]
    rw [flattenGo_congr hpos (e - (a + 1)) (e - (a + s)) (a + s) e (by omega) (by omega)]
    cases flattenGo ins (a + s) e (e - (a + s)) <;> rfl
  · intro m a sz rest
    rw [flatten_blocks]
    cases flattenBlock m.instructions a sz with
    | none => rfl
    | some f =>
        cases flatten_blocks m rest with
        | none => rfl
        | some more => rfl

/-- Witness for C9: on the map `{0x10: 2, 0x12: 4}` (all sizes positive),
the walk of `[0x10, 0x16)` steps by the recorded size `2` at the mapped
position `0x10`, by one byte at the unmapped position `0x11`, and stops at
the end of the range. -/
theorem c9_flatten_correct_witness :
    (∀ p ∈ [((16 : Nat), (2 : Nat)), (18, 4)], 1 ≤ p.2) ∧
    flattenWalk [(16, 2), (18, 4)] 16 22 =
      (flattenWalk [(16, 2), (18, 4)] 18 22).map (16 :: ·) ∧
    flattenWalk [(16, 2), (18, 4)] 17 22 =
      (flattenWalk [(16, 2), (18, 4)] 18 22).map (17 :: ·) ∧
    flattenWalk [(16, 2), (18, 4)] 22 22 = some [] :=
  ⟨by decide,
   c9_flatten_correct.2.2.2.2.1 _ 16 22 2 (by decide) (by decide) (by decide),
   c9_flatten_correct.2.2.2.1 _ 17 22 (by decide) (by decide),
   c9_flatten_correct.2.2.1 _ 22 22 (by decide)⟩

/-- C6 (amended): both mutating operations — the synchronous deletion
pass of `refresh` and the merge step `_update_functions` — preserve the
lookup-list invariant exactly as claimed (when the stale flag is clear,
`node_addresses`/`function_addresses` are the sorted key lists of
`nodes`/`functions`), and preserve the union invariants only in the
superset direction: every current function's node addresses appear in
`nodes`, and every stored node's instruction addresses appear in
`instructions`.  The claimed exact-union equalities are not invariant
(see the counterexample): deleted and replaced functions leave their
nodes and instructions behind in the flattened maps. -/
theorem c6_invariants_preserved (m : DatabaseMetadata)
    (db_function_addresses : List Nat) (F : List (Nat × FunctionMetadata))
    (hinv : databaseInvariantsWeak m) :
    databaseInvariantsWeak (refreshDeletePass db_function_addresses m) ∧
    databaseInvariantsWeak (update_functions m F).2 := by
  obtain ⟨hlk, hns, his⟩ := hinv
  constructor
  · refine ⟨?_, ?_, ?_⟩
    · intro hstale
      have hrm : (m.functions.any fun p => !(db_function_addresses.contains p.1)) = false := by
        by_contra hc
        have hany : (m.functions.any fun p => !(db_function_addresses.contains p.1)) = true := by
          revert hc
          cases m.functions.any fun p => !(db_function_addresses.contains p.1) <;> simp
        have : (refreshDeletePass db_function_addresses m).stale_lookup = true := by
          simp only [refreshDeletePass, hany, if_true]
        rw [hstale] at this
        exact absurd this (by simp)
      have hms : m.stale_lookup = false := by
        have : (refreshDeletePass db_function_addresses m).stale_lookup = m.stale_lookup := by
          simp only [refreshDeletePass, hrm]
          rfl
        rw [← this, hstale]
      have hall : ∀ q ∈ m.functions, (!(!(db_function_addresses.contains q.1))) = true := by
        intro q hq
        rw [List.any_eq_false] at hrm
        have := hrm q hq
        revert this
        cases db_function_addresses.contains q.1 <;> simp
      have hfil : ddeleteAll (fun a => !(db_function_addresses.contains a)) m.functions =
          m.functions := by
        rw [ddeleteAll]
        exact List.filter_eq_self.mpr hall
      refine ⟨(hlk hms).1, ?_⟩
      show m.function_addresses =
        sortedKeys (ddeleteAll (fun a => !(db_function_addresses.contains a)) m.functions)
      rw [hfil]
      exact (hlk hms).2
    · intro a ha
      obtain ⟨p, hp, hpa⟩ := List.mem_flatMap.mp ha
      have hpm : p ∈ m.functions := List.mem_of_mem_filter hp
      exact hns a (List.mem_flatMap.mpr ⟨p, hpm, hpa⟩)
    · exact his
  · have hover := overlayDelta_eq (F.filter (deltaKeep m.functions)) m.nodes m.instructions
    have hm' : (update_functions m F).2 =
        { m with
            functions := dupdate m.functions (F.filter (deltaKeep m.functions)),
            nodes := nodesOverlay (F.filter (deltaKeep m.functions)) m.nodes,
            instructions := instructionsOverlay (F.filter (deltaKeep m.functions)) m.instructions,
            stale_lookup :=
              if m.nodes.length ≠
                   (nodesOverlay (F.filter (deltaKeep m.functions)) m.nodes).length ∨
                 m.functions.length ≠
                   (dupdate m.functions (F.filter (deltaKeep m.functions))).length
              then true else m.stale_lookup } := by
      simp only [update_functions]
      rw [hover]
    rw [hm']
    refine ⟨?_, ?_, ?_⟩
    · intro hstale
      by_cases hcond : (m.nodes.length ≠
            (nodesOverlay (F.filter (deltaKeep m.functions)) m.nodes).length ∨
          m.functions.length ≠
            (dupdate m.functions (F.filter (deltaKeep m.functions))).length)
      · rw [show ({ m with
            functions := dupdate m.functions (F.filter (deltaKeep m.functions)),
            nodes := nodesOverlay (F.filter (deltaKeep m.functions)) m.nodes,
            instructions := instructionsOverlay (F.filter (deltaKeep m.functions)) m.instructions,
            stale_lookup :=
              if m.nodes.length ≠
                   (nodesOverlay (F.filter (deltaKeep m.functions)) m.nodes).length ∨
                 m.functions.length ≠
                   (dupdate m.functions (F.filter (deltaKeep m.functions))).length
              then true else m.stale_lookup } : DatabaseMetadata).stale_lookup =
            (if m.nodes.length ≠
                 (nodesOverlay (F.filter (deltaKeep m.functions)) m.nodes).length ∨
               m.functions.length ≠
                 (dupdate m.functions (F.filter (deltaKeep m.functions))).length
             then true else m.stale_lookup) from rfl, if_pos hcond] at hstale
        exact absurd hstale (by simp)
      · rw [show ({ m with
            functions := dupdate m.functions (F.filter (deltaKeep m.functions)),
            nodes := nodesOverlay (F.filter (deltaKeep m.functions)) m.nodes,
            instructions := instructionsOverlay (F.filter (deltaKeep m.functions)) m.instructions,
            stale_lookup :=
              if m.nodes.length ≠
                   (nodesOverlay (F.filter (deltaKeep m.functions)) m.nodes).length ∨
                 m.functions.length ≠
                   (dupdate m.functions (F.filter (deltaKeep m.functions))).length
              then true else m.stale_lookup } : DatabaseMetadata).stale_lookup =
            (if m.nodes.length ≠
                 (nodesOverlay (F.filter (deltaKeep m.functions)) m.nodes).length ∨
               m.functions.length ≠
                 (dupdate m.functions (F.filter (deltaKeep m.functions))).length
             then true else m.stale_lookup) from rfl, if_neg hcond] at hstale
        push_neg at hcond
        have hknodes : dkeys (nodesOverlay (F.filter (deltaKeep m.functions)) m.nodes) =
            dkeys m.nodes := dkeys_nodesOverlay_of_length_eq hcond.1.symm
        have hkfuncs : dkeys (dupdate m.functions (F.filter (deltaKeep m.functions))) =
            dkeys m.functions := dkeys_dupdate_of_length_eq hcond.2.symm
        constructor
        · show m.node_addresses =
            sortedKeys (nodesOverlay (F.filter (deltaKeep m.functions)) m.nodes)
          rw [sortedKeys, hknodes]
          exact (hlk hstale).1
        · show m.function_addresses =
            sortedKeys (dupdate m.functions (F.filter (deltaKeep m.functions)))
          rw [sortedKeys, hkfuncs]
          exact (hlk hstale).2
    · intro a ha
      obtain ⟨p, hp, hpa⟩ := List.mem_flatMap.mp ha
      rcases mem_dupdate hp with hpm | hpd
      · exact mem_keys_nodesOverlay_left (hns a (List.mem_flatMap.mpr ⟨p, hpm, hpa⟩))
      · exact mem_keys_nodesOverlay_right hpd hpa
    · intro a ha
      obtain ⟨q, hq, hqa⟩ := List.mem_flatMap.mp ha
      rcases mem_nodesOverlay hq with hqm | ⟨p, hpd, hqp⟩
      · exact mem_keys_instructionsOverlay_left (his a (List.mem_flatMap.mpr ⟨q, hqm, hqa⟩))
      · exact mem_keys_instructionsOverlay_right hpd hqp hqa

/-- Witness for C6: the weak invariants hold of `exInvariant` and are
kept both by a deletion pass that retains the function and by a merge of
a fresh copy of the same function. -/
theorem c6_invariants_preserved_witness :
    databaseInvariantsWeak exInvariant ∧
    (databaseInvariantsWeak (refreshDeletePass [20] exInvariant) ∧
     databaseInvariantsWeak (update_functions exInvariant [(20, exFuncC)]).2) :=
  ⟨⟨fun _ => ⟨rfl, rfl⟩,
    by rw [nodesSupersetUnion]; decide, by rw [instructionsSupersetUnion]; decide⟩,
   c6_invariants_preserved exInvariant [20] [(20, exFuncC)]
     ⟨fun _ => ⟨rfl, rfl⟩,
      by rw [nodesSupersetUnion]; decide, by rw [instructionsSupersetUnion]; decide⟩⟩

/-- Witness for C5: merging the one-function map `{20 ↦ exFuncC}` twice
into an empty cache; the second merge is a no-op with an empty delta. -/
theorem c5_merge_idempotent_witness :
    (dkeys [(20, exFuncC)]).Nodup ∧
    (update_functions (update_functions {} [(20, exFuncC)]).2 [(20, exFuncC)]).1 = [] ∧
    (update_functions (update_functions {} [(20, exFuncC)]).2 [(20, exFuncC)]).2 =
      (update_functions {} [(20, exFuncC)]).2 :=
  ⟨by decide, c5_merge_idempotent {} [(20, exFuncC)] (by decide)⟩

end Lighthouse
